import Mathlib

/-!
Verification development for `bert_score/utils.py`.

The numeric code operates on torch float tensors.  We model float values as
exact reals extended with the three IEEE non-finite values `nan`, `+inf`
(`pinf`) and `-inf` (`ninf`); the operations used by the source
(addition, multiplication, division, square root, max) follow the IEEE
rules for those values (0/0 = nan, x/0 = ±inf for x ≠ 0, nan propagation,
inf + -inf = nan, 0 * inf = nan, max propagates nan as torch reductions do).
Rounding of finite values is idealised away (finite arithmetic is exact).
-/

/-- A float value: finite real, positive infinity, negative infinity or NaN. -/
inductive NF : Type where
  | fin : ℝ → NF
  | pinf : NF
  | ninf : NF
  | nan : NF

namespace NF

/-- IEEE addition (ignoring signed zero): `inf + -inf = nan`, nan propagates. -/
noncomputable def add : NF → NF → NF
  | fin a, fin b => fin (a + b)
  | nan, _ => nan
  | _, nan => nan
  | pinf, ninf => nan
  | ninf, pinf => nan
  | pinf, _ => pinf
  | _, pinf => pinf
  | ninf, _ => ninf
  | _, ninf => ninf

/-- IEEE multiplication: `0 * ±inf = nan`, signs of infinities multiply, nan propagates. -/
noncomputable def mul : NF → NF → NF
  | fin a, fin b => fin (a * b)
  | nan, _ => nan
  | _, nan => nan
  | pinf, pinf => pinf
  | pinf, ninf => ninf
  | ninf, pinf => ninf
  | ninf, ninf => pinf
  | pinf, fin b => if b = 0 then nan else if 0 < b then pinf else ninf
  | fin a, pinf => if a = 0 then nan else if 0 < a then pinf else ninf
  | ninf, fin b => if b = 0 then nan else if 0 < b then ninf else pinf
  | fin a, ninf => if a = 0 then nan else if 0 < a then ninf else pinf

/-- IEEE division (zero denominators modelled with the sign of `+0`):
`0/0 = nan`, `x/0 = ±inf` for finite `x ≠ 0`, `x/±inf = 0`, `inf/inf = nan`. -/
noncomputable def div : NF → NF → NF
  | fin a, fin b =>
      if b = 0 then (if a = 0 then nan else if 0 < a then pinf else ninf)
      else fin (a / b)
  | nan, _ => nan
  | _, nan => nan
  | pinf, pinf => nan
  | pinf, ninf => nan
  | ninf, pinf => nan
  | ninf, ninf => nan
  | fin _, pinf => fin 0
  | fin _, ninf => fin 0
  | pinf, fin b => if 0 ≤ b then pinf else ninf
  | ninf, fin b => if 0 ≤ b then ninf else pinf

/-- IEEE square root: `sqrt x = nan` for `x < 0` (and for nan), `sqrt +inf = +inf`. -/
noncomputable def sqrt : NF → NF
  | fin a => if a < 0 then nan else fin (Real.sqrt a)
  | pinf => pinf
  | ninf => nan
  | nan => nan

/-- Binary maximum as used by torch max-reductions: NaN propagates. -/
noncomputable def max : NF → NF → NF
  | nan, _ => nan
  | _, nan => nan
  | pinf, _ => pinf
  | _, pinf => pinf
  | ninf, y => y
  | x, ninf => x
  | fin a, fin b => if a ≤ b then fin b else fin a

/-- `torch.isnan`. -/
def isnan : NF → Bool
  | nan => true
  | _ => false

/-- A value is finite iff it is neither an infinity nor NaN. -/
def isFinite : NF → Bool
  | fin _ => true
  | _ => false

noncomputable instance : Add NF := ⟨NF.add⟩
noncomputable instance : Mul NF := ⟨NF.mul⟩
noncomputable instance : Div NF := ⟨NF.div⟩

@[simp] theorem add_def (x y : NF) : x + y = NF.add x y := rfl
@[simp] theorem mul_def (x y : NF) : x * y = NF.mul x y := rfl
@[simp] theorem div_def (x y : NF) : x / y = NF.div x y := rfl

@[simp] theorem add_fin_fin (a b : ℝ) : add (fin a) (fin b) = fin (a + b) := rfl
@[simp] theorem mul_fin_fin (a b : ℝ) : mul (fin a) (fin b) = fin (a * b) := rfl

@[simp] theorem isnan_fin (a : ℝ) : isnan (fin a) = false := rfl
@[simp] theorem isnan_nan : isnan nan = true := rfl
@[simp] theorem isnan_pinf : isnan pinf = false := rfl
@[simp] theorem isnan_ninf : isnan ninf = false := rfl

@[simp] theorem isFinite_fin (a : ℝ) : isFinite (fin a) = true := rfl
@[simp] theorem isFinite_nan : isFinite nan = false := rfl
@[simp] theorem isFinite_pinf : isFinite pinf = false := rfl
@[simp] theorem isFinite_ninf : isFinite ninf = false := rfl

theorem div_fin_fin (a b : ℝ) (hb : b ≠ 0) : div (fin a) (fin b) = fin (a / b) := by
  simp [div, hb]

theorem div_fin_zero (a : ℝ) :
    div (fin a) (fin 0) =
      (if a = 0 then nan else if 0 < a then pinf else ninf) := by
  simp [div]

@[simp] theorem max_fin_fin (a b : ℝ) :
    max (fin a) (fin b) = if a ≤ b then fin b else fin a := rfl

theorem sqrt_fin_nonneg (a : ℝ) (h : 0 ≤ a) : sqrt (fin a) = fin (Real.sqrt a) := by
  simp [sqrt, not_lt.mpr h]

@[simp] theorem sqrt_fin_one : sqrt (fin 1) = fin 1 := by
  rw [sqrt_fin_nonneg 1 (by norm_num), Real.sqrt_one]

theorem fin_injective : Function.Injective fin := by
  intro a b h
  cases h
  rfl

@[simp] theorem fin_inj (a b : ℝ) : fin a = fin b ↔ a = b :=
  ⟨fun h => fin_injective h, fun h => by rw [h]⟩

theorem mulComm (x y : NF) : mul x y = mul y x := by
  cases x <;> cases y <;> simp [mul, mul_comm]

/-- Multiplying any value by a non-finite value is non-finite. -/
theorem mul_not_finite (x y : NF) (hy : isFinite y = false) :
    isFinite (mul x y) = false := by
  cases y with
  | fin b => simp [isFinite] at hy
  | nan => cases x <;> rfl
  | pinf => cases x <;> first | rfl | (simp only [mul]; split_ifs <;> rfl)
  | ninf => cases x <;> first | rfl | (simp only [mul]; split_ifs <;> rfl)

/-- Adding anything to a non-finite value stays non-finite. -/
theorem add_not_finite (x y : NF) (hx : isFinite x = false) :
    isFinite (add x y) = false := by
  cases x <;> simp [isFinite] at hx ⊢ <;> cases y <;> simp [add, isFinite]

end NF

/-! ### Reductions mirroring `torch.sum` and `torch.max` along one dimension. -/

/-- Sum of the values of `f` (the reduction performed by `tensor.sum(dim)`). -/
noncomputable def fsum {n : ℕ} (f : Fin n → NF) : NF :=
  (List.ofFn f).foldr NF.add (NF.fin 0)

theorem fsum_fin {n : ℕ} (g : Fin n → ℝ) :
    fsum (fun i => NF.fin (g i)) = NF.fin (∑ i, g i) := by
  induction n with
  | zero => simp [fsum, List.ofFn_zero]
  | succ m ih =>
      rw [fsum, List.ofFn_succ, List.foldr_cons]
      have htail := ih (fun i => g i.succ)
      rw [fsum] at htail
      rw [htail, NF.add_fin_fin, Fin.sum_univ_succ]

/-- A sum with at least one term, all of whose terms are non-finite, is non-finite. -/
theorem fsum_not_finite {n : ℕ} (f : Fin n → NF) (hn : 0 < n)
    (hf : ∀ i, (f i).isFinite = false) : (fsum f).isFinite = false := by
  cases n with
  | zero => exact absurd hn (by simp)
  | succ m =>
      rw [fsum, List.ofFn_succ, List.foldr_cons]
      exact NF.add_not_finite _ _ (hf 0)

/-- Maximum of a nonempty list of values (`tensor.max(dim)` reduction); NaN propagates. -/
noncomputable def listMax : List NF → NF
  | [] => NF.nan
  | x :: xs => xs.foldl NF.max x

/-- Maximum of the values of `f`. -/
noncomputable def fmax {n : ℕ} (f : Fin n → NF) : NF :=
  listMax (List.ofFn f)

theorem max_finite (x y : NF) (hx : x.isFinite = true) (hy : y.isFinite = true) :
    (NF.max x y).isFinite = true := by
  cases x with
  | fin a =>
      cases y with
      | fin b => simp only [NF.max]; split_ifs <;> rfl
      | pinf => simp [NF.isFinite] at hy
      | ninf => rfl
      | nan => simp [NF.isFinite] at hy
  | pinf => simp [NF.isFinite] at hx
  | ninf =>
      cases y with
      | fin b => rfl
      | pinf => simp [NF.isFinite] at hy
      | ninf => simp [NF.isFinite] at hy
      | nan => simp [NF.isFinite] at hy
  | nan => simp [NF.isFinite] at hx

theorem foldl_max_finite (xs : List NF) (x : NF) (hx : x.isFinite = true)
    (hxs : ∀ y ∈ xs, y.isFinite = true) : (xs.foldl NF.max x).isFinite = true := by
  induction xs generalizing x with
  | nil => exact hx
  | cons y ys ih =>
      rw [List.foldl_cons]
      exact ih _ (max_finite x y hx (hxs y (by simp)))
        (fun z hz => hxs z (by simp [hz]))

theorem fmax_finite {n : ℕ} (f : Fin n → NF) (hn : 0 < n)
    (hf : ∀ i, (f i).isFinite = true) : (fmax f).isFinite = true := by
  cases n with
  | zero => exact absurd hn (by simp)
  | succ m =>
      rw [fmax, List.ofFn_succ]
      exact foldl_max_finite _ _ (hf 0) (by
        intro z hz
        rw [List.mem_ofFn] at hz
        obtain ⟨i, rfl⟩ := hz
        exact hf _)

/-! ### `padding` (src/bert_score/utils.py lines 21-29).

`lens = [len(a) for a in arr]`, `max_len = lens.max()`, the padded matrix is
filled with `pad_token` and each row's prefix overwritten with the row data,
and `mask` is 1 on each row's true prefix and 0 on the padded tail.  A row of
the result is therefore `a ++ replicate (max_len - len a) pad_token`, and the
mask row is `replicate (len a) 1 ++ replicate (max_len - len a) 0`.
`lens.max()` of an empty batch raises in torch; the model returns 0 there. -/

/-- `lens.max().item()`: the length of the longest row. -/
def maxLen {α : Type} (arr : List (List α)) : ℕ :=
  (arr.map List.length).foldr Nat.max 0

/-- `padding(arr, pad_token)`: returns `(padded, lens, mask)`. -/
def padding {α : Type} (arr : List (List α)) (pad_token : α) :
    List (List α) × List ℕ × List (List ℕ) :=
  (arr.map (fun a => a ++ List.replicate (maxLen arr - a.length) pad_token),
   arr.map List.length,
   arr.map (fun a => List.replicate a.length 1 ++ List.replicate (maxLen arr - a.length) 0))

theorem le_maxLen {α : Type} (arr : List (List α)) (a : List α) (ha : a ∈ arr) :
    a.length ≤ maxLen arr := by
  induction arr with
  | nil => cases ha
  | cons b bs ih =>
      rcases List.mem_cons.mp ha with h | h
      · subst h
        exact Nat.le_max_left _ _
      · exact le_trans (ih h) (Nat.le_max_right _ _)

theorem maxLen_cons {α : Type} (b : List α) (bs : List (List α)) :
    maxLen (b :: bs) = Nat.max b.length (maxLen bs) := rfl

theorem maxLen_mem {α : Type} (arr : List (List α)) (h : arr ≠ []) :
    ∃ a ∈ arr, maxLen arr = a.length := by
  induction arr with
  | nil => exact absurd rfl h
  | cons b bs ih =>
      rcases eq_or_ne bs [] with hbs | hbs
      · subst hbs
        exact ⟨b, by simp, by simp [maxLen]⟩
      · obtain ⟨a, ha, hlen⟩ := ih hbs
        rcases Nat.le_total (maxLen bs) b.length with hle | hle
        · refine ⟨b, by simp, ?_⟩
          rw [maxLen_cons]
          exact Nat.max_eq_left hle
        · refine ⟨a, by simp [ha], ?_⟩
          rw [maxLen_cons]
          exact (Nat.max_eq_right hle).trans hlen

theorem getD_map {α β : Type} (f : α → β) (l : List α) (i : ℕ) (h : i < l.length)
    (d : β) (d2 : α) : (l.map f).getD i d = f (l.getD i d2) := by
  induction l generalizing i with
  | nil => simp at h
  | cons x xs ih =>
      cases i with
      | zero => rfl
      | succ j =>
          simp only [List.map_cons, List.getD_cons_succ]
          exact ih j (by simpa using h)

/-! ### The IDF table: a model of Python's `defaultdict(lambda: log((num_docs+1)/1))`.

A `defaultdict` holds a partial map plus a default factory; here the factory
is a constant, so it is modelled by a real number `dflt`.  Crucially, Python's
`defaultdict.__getitem__` on a missing key INSERTS the default into the map
and returns it; `DDict.get` reproduces that, returning the value together
with the (possibly grown) dictionary. -/

structure DDict where
  entries : ℤ → Option ℝ
  dflt : ℝ

namespace DDict

/-- `d[k]` on a `defaultdict`: a present key returns its value and leaves the
dict unchanged; a missing key inserts the default and returns it. -/
def get (d : DDict) (k : ℤ) : ℝ × DDict :=
  match d.entries k with
  | some v => (v, d)
  | none => (d.dflt, ⟨fun k2 => if k2 = k then some d.dflt else d.entries k2, d.dflt⟩)

/-- The lookup function induced by the dictionary (what any single read returns). -/
def val (d : DDict) (k : ℤ) : ℝ := (d.entries k).getD d.dflt

/-- Sequential lookups `[d[k] for k in ks]`, threading the defaultdict state. -/
def getMany (d : DDict) (ks : List ℤ) : List ℝ × DDict :=
  match ks with
  | [] => ([], d)
  | k :: ks2 =>
      let p := d.get k
      let q := p.2.getMany ks2
      (p.1 :: q.1, q.2)

/-- Sequential lookups `[[d[i] for i in a] for a in rows]`, threading state. -/
def getRows (d : DDict) (rows : List (List ℤ)) : List (List ℝ) × DDict :=
  match rows with
  | [] => ([], d)
  | r :: rs =>
      let p := d.getMany r
      let q := p.2.getRows rs
      (p.1 :: q.1, q.2)

theorem get_fst (d : DDict) (k : ℤ) : (d.get k).1 = d.val k := by
  unfold get val
  cases d.entries k <;> simp

/-- A lookup never changes the induced lookup function (inserting the default
at a missing key is invisible to `val`). -/
theorem get_val (d : DDict) (k k2 : ℤ) : ((d.get k).2).val k2 = d.val k2 := by
  unfold get val
  cases hk : d.entries k with
  | some v => rfl
  | none =>
      simp only []
      by_cases h : k2 = k
      · subst h
        simp [hk]
      · simp [h]

theorem getMany_val (d : DDict) (ks : List ℤ) (k2 : ℤ) :
    ((d.getMany ks).2).val k2 = d.val k2 := by
  induction ks generalizing d with
  | nil => rfl
  | cons k ks2 ih =>
      rw [getMany]
      exact (ih _).trans (get_val d k k2)

theorem getMany_fst (d : DDict) (ks : List ℤ) :
    (d.getMany ks).1 = ks.map d.val := by
  induction ks generalizing d with
  | nil => rfl
  | cons k ks2 ih =>
      rw [getMany, List.map_cons]
      refine congrArg₂ _ (get_fst d k) ?_
      rw [ih]
      refine List.map_congr_left ?_
      intro x _
      exact get_val d k x

theorem getRows_val (d : DDict) (rows : List (List ℤ)) (k2 : ℤ) :
    ((d.getRows rows).2).val k2 = d.val k2 := by
  induction rows generalizing d with
  | nil => rfl
  | cons r rs ih =>
      rw [getRows]
      exact (ih _).trans (getMany_val d r k2)

theorem getRows_fst (d : DDict) (rows : List (List ℤ)) :
    (d.getRows rows).1 = rows.map (fun r => r.map d.val) := by
  induction rows generalizing d with
  | nil => rfl
  | cons r rs ih =>
      rw [getRows, List.map_cons]
      refine congrArg₂ _ (getMany_fst d r) ?_
      rw [ih]
      refine List.map_congr_left ?_
      intro x _
      have hv : (d.getMany r).2.val = d.val := funext (getMany_val d r)
      rw [hv]

end DDict

/-! ### `process` and `get_idf_dict` (source lines 40-58).

The tokenizer is an external capability (spec §1: out of scope, fixed
interface); it is passed in as the two functions the source calls on it,
`tokenize : String → List String` and the numericalizer
`convert_tokens_to_ids : List String → List ℤ`. -/

/-- `process(a, tokenizer)`: wrap with the `[CLS]`/`[SEP]` markers, tokenize,
numericalize, and reduce to a set (duplicates within one document count once). -/
def process (tokenize : String → List String) (convert : List String → List ℤ)
    (a : String) : Finset ℤ :=
  (convert ("[CLS]" :: tokenize a ++ ["[SEP]"])).toFinset

/-- Document frequency of token id `idx`: in how many documents of `arr` it
appears.  This is the count produced by `Counter.update(chain.from_iterable(
p.map(process_partial, arr)))` — each document contributes its `process` set
once, so the multiset count of `idx` is the number of documents containing it
(the worker pool only parallelises the map and does not affect the result). -/
def idf_count (arr : List String) (tokenize : String → List String)
    (convert : List String → List ℤ) (idx : ℤ) : ℕ :=
  arr.countP (fun a => decide (idx ∈ process tokenize convert a))

/-- `get_idf_dict(arr, tokenizer, nthreads)`: a defaultdict whose default is
`log((num_docs+1)/1)`, updated with `log((num_docs+1)/(c+1))` for every id
seen in the corpus with document frequency `c ≥ 1`.  `nthreads` sizes the
worker pool and does not influence the result. -/
noncomputable def get_idf_dict (arr : List String) (tokenize : String → List String)
    (convert : List String → List ℤ) (nthreads : ℕ) : DDict :=
  { entries := fun idx =>
      if 0 < idf_count arr tokenize convert idx then
        some (Real.log (((arr.length : ℝ) + 1) / ((idf_count arr tokenize convert idx : ℝ) + 1)))
      else none,
    dflt := Real.log (((arr.length : ℝ) + 1) / 1) }

/-- The IDF weight formula of the spec: `log((N+1)/(c+1))` for a token seen in
exactly `c` of `N` documents. -/
noncomputable def idf_weight (N c : ℕ) : ℝ :=
  Real.log (((N : ℝ) + 1) / ((c : ℝ) + 1))

/-! ### `collate_idf` (source lines 61-76).

Marker wrapping and numericalization; per-token IDF lookups go through the
defaultdict sequentially (the list comprehension mutates it on missing keys),
so the dictionary state is threaded and returned.  Note the two `padding`
calls: BOTH use `pad_token` — the numeric id of the pad marker — as the fill
value, the second one merely reinterpreting it as a float. -/

/-- The numericalized, marker-wrapped token id rows of `collate_idf`. -/
def collate_ids (arr : List String) (tokenize : String → List String)
    (numericalize : List String → List ℤ) : List (List ℤ) :=
  (arr.map (fun a => "[CLS]" :: tokenize a ++ ["[SEP]"])).map numericalize

/-- `collate_idf(arr, tokenize, numericalize, idf_dict, pad)`: returns
`(padded, padded_idf, lens, mask)` plus the threaded defaultdict state. -/
def collate_idf (arr : List String) (tokenize : String → List String)
    (numericalize : List String → List ℤ) (idf_dict : DDict) (pad : String) :
    List (List ℤ) × List (List ℝ) × List ℕ × List (List ℕ) × DDict :=
  let ids := collate_ids arr tokenize numericalize
  let wd := idf_dict.getRows ids
  let pad_token := (numericalize [pad]).headD 0
  let p1 := padding ids pad_token
  let p2 := padding wd.1 ((pad_token : ℤ) : ℝ)
  (p1.1, p2.1, p1.2.1, p1.2.2, wd.2)

/-! ### `greedy_cos_idf` (source lines 103-131).

Tensors of shape `B × L` / `B × L × H` are modelled as functions on `Fin`
indices; `torch.bmm`, broadcasting, `.max(dim)`, `.sum(dim)` and the in-place
`div_` become the indexwise operations below, one definition per local
variable of the source function.  The two `lens` arguments are accepted and
ignored, exactly as in the source body. -/

namespace greedy

section

variable {B Lr Lh H : ℕ}

/-- `torch.norm(·, dim=-1)`: L2 norm of one position's embedding vector. -/
noncomputable def l2norm (v : Fin H → NF) : NF :=
  NF.sqrt (fsum (fun h => v h * v h))

/-- `embedding.div_(torch.norm(embedding, dim=-1).unsqueeze(-1))`. -/
noncomputable def normEmb (e : Fin B → Fin L → Fin H → NF) :
    Fin B → Fin L → Fin H → NF :=
  fun b j h => e b j h / l2norm (e b j)

variable (ref_embedding : Fin B → Fin Lr → Fin H → NF)
variable (ref_masks : Fin B → Fin Lr → NF)
variable (ref_idf : Fin B → Fin Lr → NF)
variable (hyp_embedding : Fin B → Fin Lh → Fin H → NF)
variable (hyp_masks : Fin B → Fin Lh → NF)
variable (hyp_idf : Fin B → Fin Lh → NF)

/-- `sim = torch.bmm(hyp_embedding, ref_embedding.transpose(1, 2))` applied to
the normalized embeddings: `sim[b][j][k] = Σ_h hyp[b][j][h] * ref[b][k][h]`. -/
noncomputable def sim : Fin B → Fin Lh → Fin Lr → NF :=
  fun b j k => fsum (fun h => normEmb hyp_embedding b j h * normEmb ref_embedding b k h)

/-- `masks = torch.bmm(hyp_masks.unsqueeze(2).float(), ref_masks.unsqueeze(1).float())`
(the `expand`/`view_as` only reshape): `masks[b][j][k] = hyp_masks[b][j] * ref_masks[b][k]`. -/
noncomputable def maskProd : Fin B → Fin Lh → Fin Lr → NF :=
  fun b j k => hyp_masks b j * ref_masks b k

/-- `sim = sim * masks` (multiplicative masking). -/
noncomputable def masked_sim : Fin B → Fin Lh → Fin Lr → NF :=
  fun b j k =>
    sim ref_embedding hyp_embedding b j k * maskProd ref_masks hyp_masks b j k

/-- `word_precision = sim.max(dim=2)[0]`. -/
noncomputable def word_precision : Fin B → Fin Lh → NF :=
  fun b j => fmax (fun k => masked_sim ref_embedding ref_masks hyp_embedding hyp_masks b j k)

/-- `word_recall = sim.max(dim=1)[0]`. -/
noncomputable def word_recall : Fin B → Fin Lr → NF :=
  fun b k => fmax (fun j => masked_sim ref_embedding ref_masks hyp_embedding hyp_masks b j k)

/-- `hyp_idf.div_(hyp_idf.sum(dim=1, keepdim=True))`, consumed as
`precision_scale` with no NaN guard. -/
noncomputable def precision_scale : Fin B → Fin Lh → NF :=
  fun b j => hyp_idf b j / fsum (fun j2 => hyp_idf b j2)

/-- `ref_idf.div_(ref_idf.sum(dim=1, keepdim=True))`, before the NaN guard. -/
noncomputable def recall_scale_raw : Fin B → Fin Lr → NF :=
  fun b k => ref_idf b k / fsum (fun k2 => ref_idf b k2)

/-- `recall_scale[torch.isnan(recall_scale)] = 1e-8`: the recall-side scale
after the NaN replacement (the float literal `1e-8` idealised as `10⁻⁸`). -/
noncomputable def recall_scale : Fin B → Fin Lr → NF :=
  fun b k =>
    if (recall_scale_raw ref_idf b k).isnan then NF.fin (1 / 100000000)
    else recall_scale_raw ref_idf b k

/-- `P = (word_precision * precision_scale).sum(dim=1)`. -/
noncomputable def P : Fin B → NF :=
  fun b => fsum (fun j =>
    word_precision ref_embedding ref_masks hyp_embedding hyp_masks b j *
      precision_scale hyp_idf b j)

/-- `R = (word_recall * recall_scale).sum(dim=1)`. -/
noncomputable def R : Fin B → NF :=
  fun b => fsum (fun k =>
    word_recall ref_embedding ref_masks hyp_embedding hyp_masks b k *
      recall_scale ref_idf b k)

/-- `F = 2 * P * R / (P + R)`. -/
noncomputable def F : Fin B → NF :=
  fun b =>
    NF.fin 2 * P ref_embedding ref_masks hyp_embedding hyp_masks hyp_idf b *
        R ref_embedding ref_masks ref_idf hyp_embedding hyp_masks b /
      (P ref_embedding ref_masks hyp_embedding hyp_masks hyp_idf b +
        R ref_embedding ref_masks ref_idf hyp_embedding hyp_masks b)

end

end greedy

/-- `greedy_cos_idf(ref_embedding, ref_lens, ref_masks, ref_idf,
hyp_embedding, hyp_lens, hyp_masks, hyp_idf)`: returns `(P, R, F)`; the
`lens` arguments are unused by the source body. -/
noncomputable def greedy_cos_idf {B Lr Lh H : ℕ}
    (ref_embedding : Fin B → Fin Lr → Fin H → NF) (ref_lens : Fin B → ℕ)
    (ref_masks : Fin B → Fin Lr → NF) (ref_idf : Fin B → Fin Lr → NF)
    (hyp_embedding : Fin B → Fin Lh → Fin H → NF) (hyp_lens : Fin B → ℕ)
    (hyp_masks : Fin B → Fin Lh → NF) (hyp_idf : Fin B → Fin Lh → NF) :
    (Fin B → NF) × (Fin B → NF) × (Fin B → NF) :=
  (greedy.P ref_embedding ref_masks hyp_embedding hyp_masks hyp_idf,
   greedy.R ref_embedding ref_masks ref_idf hyp_embedding hyp_masks,
   greedy.F ref_embedding ref_masks ref_idf hyp_embedding hyp_masks hyp_idf)

/-! ### `bert_encode`, `get_bert_embedding`, `bert_cos_score_idf` (lines 32-151).

The pretrained embedding model is an external capability (spec §1/§4.4: out
of scope, "treated as a black box with a fixed input/output contract",
deterministic, evaluated in inference mode, and chunk-invariant: each row's
output depends only on that row's ids, segment ids and attention mask).  It
is therefore passed in as a per-row function
`M : ids → segment-ids → attention-mask-row → per-position embedding vectors`,
and `bert_encode` applies it to every row of the padded batch. -/

/-- `bert_encode(model, x, attention_mask)`: `x_seg` is all zeros; the model
maps each row of the batch (with its mask row) to its embedding matrix. -/
def bert_encode (M : List ℤ → List ℤ → List ℕ → List (List ℝ))
    (x : List (List ℤ)) (attention_mask : List (List ℕ)) : List (List (List ℝ)) :=
  List.zipWith (fun row mrow => M row (row.map (fun _ => 0)) mrow) x attention_mask

/-- Python's `range(0, n, step)` (empty for `step = 0`, where Python raises). -/
def pyRange (n step : ℕ) : List ℕ :=
  List.range' 0 ((n + step - 1) / step) step

/-- `get_bert_embedding(all_sens, model, tokenizer, idf_dict, batch_size=-1)`:
collate, then run the model over contiguous sub-batches and concatenate
(`torch.cat(embeddings, dim=0)`).  Returns
`(total_embedding, lens, mask, padded_idf)` plus the threaded dict state. -/
def get_bert_embedding (all_sens : List String)
    (M : List ℤ → List ℤ → List ℕ → List (List ℝ))
    (tokenize : String → List String) (numericalize : List String → List ℤ)
    (idf_dict : DDict) (batch_size : ℤ) :
    List (List (List ℝ)) × List ℕ × List (List ℕ) × List (List ℝ) × DDict :=
  let c := collate_idf all_sens tokenize numericalize idf_dict "[PAD]"
  let padded_sens := c.1
  let padded_idf := c.2.1
  let lens := c.2.2.1
  let mask := c.2.2.2.1
  let bs := if batch_size = -1 then all_sens.length else batch_size.toNat
  let embeddings := (pyRange all_sens.length bs).map
      (fun i => bert_encode M ((padded_sens.drop i).take bs) ((mask.drop i).take bs))
  (embeddings.flatten, lens, mask, padded_idf, c.2.2.2.2)

/-- Entry `(b, j, h)` of a batched embedding given as nested lists. -/
def at3 (t : List (List (List ℝ))) (b j h : ℕ) : ℝ :=
  ((t.getD b []).getD j []).getD h 0

/-- Entry `(b, j)` of a real matrix given as nested lists. -/
def at2R (m : List (List ℝ)) (b j : ℕ) : ℝ :=
  (m.getD b []).getD j 0

/-- Entry `(b, j)` of the integer mask matrix given as nested lists. -/
def at2N (m : List (List ℕ)) (b j : ℕ) : ℕ :=
  (m.getD b []).getD j 0

/-- One iteration of the batch loop of `bert_cos_score_idf`: embed the ref
and hyp chunks, run `greedy_cos_idf`, and stack `(P, R, F1)` row-wise
(`torch.stack((P, R, F1), dim=1)`).  The batch dimension is the ref chunk
size and the sequence dimensions are the collated `max_len`s (the length of
a mask row). -/
noncomputable def scoreChunk (M : List ℤ → List ℤ → List ℕ → List (List ℝ))
    (Hdim : ℕ) (batch_refs batch_hyps : List String)
    (tokenize : String → List String) (numericalize : List String → List ℤ)
    (d : DDict) : List (NF × NF × NF) × DDict :=
  let r := get_bert_embedding batch_refs M tokenize numericalize d (-1)
  let h := get_bert_embedding batch_hyps M tokenize numericalize r.2.2.2.2 (-1)
  let B := batch_refs.length
  let Lr := (r.2.2.1.headD []).length
  let Lh := (h.2.2.1.headD []).length
  let ref_embedding : Fin B → Fin Lr → Fin Hdim → NF :=
    fun b k x => NF.fin (at3 r.1 b k x)
  let ref_lens : Fin B → ℕ := fun b => r.2.1.getD b 0
  let ref_masks : Fin B → Fin Lr → NF := fun b k => NF.fin ((at2N r.2.2.1 b k : ℕ) : ℝ)
  let ref_idf : Fin B → Fin Lr → NF := fun b k => NF.fin (at2R r.2.2.2.1 b k)
  let hyp_embedding : Fin B → Fin Lh → Fin Hdim → NF :=
    fun b j x => NF.fin (at3 h.1 b j x)
  let hyp_lens : Fin B → ℕ := fun b => h.2.1.getD b 0
  let hyp_masks : Fin B → Fin Lh → NF := fun b j => NF.fin ((at2N h.2.2.1 b j : ℕ) : ℝ)
  let hyp_idf : Fin B → Fin Lh → NF := fun b j => NF.fin (at2R h.2.2.2.1 b j)
  let out := greedy_cos_idf ref_embedding ref_lens ref_masks ref_idf
    hyp_embedding hyp_lens hyp_masks hyp_idf
  (List.ofFn (fun b : Fin B => (out.1 b, out.2.1 b, out.2.2 b)), h.2.2.2.2)

/-- `bert_cos_score_idf(model, refs, hyps, tokenizer, idf_dict, batch_size)`:
loop over `range(0, len(refs), batch_size)`, slice both lists with the same
indices, score each chunk, and concatenate (`torch.cat(preds, dim=0)`).
`verbose`/`tqdm` only reports progress and is omitted. -/
noncomputable def bert_cos_score_idf (M : List ℤ → List ℤ → List ℕ → List (List ℝ))
    (Hdim : ℕ) (refs hyps : List String)
    (tokenize : String → List String) (numericalize : List String → List ℤ)
    (idf_dict : DDict) (batch_size : ℕ) : List (NF × NF × NF) :=
  ((pyRange refs.length batch_size).foldl
    (fun acc batch_start =>
      let pr := scoreChunk M Hdim ((refs.drop batch_start).take batch_size)
        ((hyps.drop batch_start).take batch_size) tokenize numericalize acc.2
      (acc.1 ++ pr.1, pr.2))
    (([] : List (NF × NF × NF)), idf_dict)).1

/-! ### Indexing helpers for padded rows. -/

theorem getD_append_left {α : Type} (l1 l2 : List α) (j : ℕ) (d : α)
    (h : j < l1.length) : (l1 ++ l2).getD j d = l1.getD j d := by
  induction l1 generalizing j with
  | nil => simp at h
  | cons x xs ih =>
      cases j with
      | zero => rfl
      | succ n =>
          simp only [List.cons_append, List.getD_cons_succ]
          exact ih n (by simpa using h)

theorem getD_append_right {α : Type} (l1 l2 : List α) (j : ℕ) (d : α)
    (h : l1.length ≤ j) : (l1 ++ l2).getD j d = l2.getD (j - l1.length) d := by
  induction l1 generalizing j with
  | nil => simp
  | cons x xs ih =>
      cases j with
      | zero => simp at h
      | succ n =>
          simp only [List.cons_append, List.getD_cons_succ, List.length_cons]
          rw [ih n (by simpa using h)]
          simp [Nat.succ_sub_succ]

theorem getD_replicate {α : Type} (n j : ℕ) (x d : α) (h : j < n) :
    (List.replicate n x).getD j d = x := by
  induction n generalizing j with
  | zero => simp at h
  | succ m ih =>
      cases j with
      | zero => rfl
      | succ i =>
          rw [List.replicate_succ, List.getD_cons_succ]
          exact ih i (by omega)

theorem padded_row_getD {α : Type} (a : List α) (pad d : α) (m j : ℕ)
    (hle : a.length ≤ m) :
    (a ++ List.replicate (m - a.length) pad).getD j d =
      if j < a.length then a.getD j d else if j < m then pad else d := by
  by_cases hja : j < a.length
  · rw [getD_append_left _ _ _ _ hja, if_pos hja]
  · rw [getD_append_right _ _ _ _ (by omega), if_neg hja]
    by_cases hjm : j < m
    · rw [getD_replicate _ _ _ _ (by omega), if_pos hjm]
    · rw [if_neg hjm, List.getD_eq_default]
      simp
      omega

theorem two_block_row_getD {α : Type} (n m j : ℕ) (x y d : α) (hle : n ≤ m) :
    ((List.replicate n x ++ List.replicate (m - n) y)).getD j d =
      if j < n then x else if j < m then y else d := by
  by_cases hjn : j < n
  · rw [getD_append_left _ _ _ _ (by simpa using hjn), if_pos hjn,
      getD_replicate _ _ _ _ hjn]
  · rw [getD_append_right _ _ _ _ (by simpa using (by omega : n ≤ j)), if_neg hjn]
    by_cases hjm : j < m
    · rw [List.length_replicate, getD_replicate _ _ _ _ (by omega), if_pos hjm]
    · rw [if_neg hjm, List.getD_eq_default]
      simp
      omega

/-- C7: for every non-empty collection of integer sequences and every pad
value, `padding` returns a length vector whose `i`-th entry is the true
length of sequence `i`; a mask matrix whose row `i` is 1 exactly below
`lens[i]` and 0 at later columns (`mask[i][j] = 1 ↔ j < lens[i]`); a padded
matrix whose row `i` equals sequence `i` below its length and the pad value
at every later column; rows of width `max_len`; and `max_len` equal to the
length of the longest input sequence. -/
theorem C7_padding_characterization (arr : List (List ℤ)) (pad : ℤ)
    (hne : arr ≠ []) (i j : ℕ) (hi : i < arr.length) (hj : j < maxLen arr) :
    ((padding arr pad).2.1).getD i 0 = (arr.getD i []).length ∧
    (((padding arr pad).1).getD i []).length = maxLen arr ∧
    (((padding arr pad).2.2).getD i []).length = maxLen arr ∧
    ((((padding arr pad).2.2).getD i []).getD j 0 =
      if j < (arr.getD i []).length then 1 else 0) ∧
    (((((padding arr pad).2.2).getD i []).getD j 0 = 1) ↔
      j < (arr.getD i []).length) ∧
    ((((padding arr pad).1).getD i []).getD j pad =
      if j < (arr.getD i []).length then (arr.getD i []).getD j pad else pad) ∧
    (∃ a ∈ arr, maxLen arr = a.length) ∧
    (∀ a ∈ arr, a.length ≤ maxLen arr) := by
  have hmem : arr.getD i [] ∈ arr := by
    rw [List.getD_eq_getElem arr [] hi]
    exact List.getElem_mem hi
  have hle : (arr.getD i []).length ≤ maxLen arr := le_maxLen arr _ hmem
  have hlens : ((padding arr pad).2.1).getD i 0 = (arr.getD i []).length := by
    simp only [padding]
    exact getD_map List.length arr i hi 0 []
  have hprow : ((padding arr pad).1).getD i [] =
      (arr.getD i []) ++ List.replicate (maxLen arr - (arr.getD i []).length) pad := by
    simp only [padding]
    exact getD_map _ arr i hi [] []
  have hmrow : ((padding arr pad).2.2).getD i [] =
      List.replicate (arr.getD i []).length 1 ++
        List.replicate (maxLen arr - (arr.getD i []).length) 0 := by
    simp only [padding]
    exact getD_map _ arr i hi [] []
  refine ⟨hlens, ?_, ?_, ?_, ?_, ?_, maxLen_mem arr hne, fun a ha => le_maxLen arr a ha⟩
  · rw [hprow]
    simp only [List.length_append, List.length_replicate]
    omega
  · rw [hmrow]
    simp only [List.length_append, List.length_replicate]
    omega
  · rw [hmrow, two_block_row_getD _ _ _ _ _ _ hle]
    by_cases h : j < (arr.getD i []).length
    · rw [if_pos h, if_pos h]
    · rw [if_neg h, if_neg h, if_pos hj]
  · rw [hmrow, two_block_row_getD _ _ _ _ _ _ hle]
    by_cases h : j < (arr.getD i []).length
    · simp [h]
    · simp [h, hj]
  · rw [hprow, padded_row_getD _ _ _ _ _ hle]
    by_cases h : j < (arr.getD i []).length
    · rw [if_pos h, if_pos h]
    · rw [if_neg h, if_neg h, if_pos hj]

theorem C7_padding_witness :
    ([[5], [7, 8]] : List (List ℤ)) ≠ [] ∧
    0 < ([[5], [7, 8]] : List (List ℤ)).length ∧
    1 < maxLen ([[5], [7, 8]] : List (List ℤ)) ∧
    (((padding ([[5], [7, 8]] : List (List ℤ)) 9).1).getD 0 []).getD 1 9 = 9 ∧
    (((padding ([[5], [7, 8]] : List (List ℤ)) 9).2.2).getD 1 []).getD 1 0 = 1 := by
  refine ⟨by decide, by decide, by decide, ?_, ?_⟩
  · have h := C7_padding_characterization [[5], [7, 8]] 9 (by decide) 0 1
      (by decide) (by decide)
    rw [h.2.2.2.2.2.1]
    decide
  · have h := C7_padding_characterization [[5], [7, 8]] 9 (by decide) 1 1
      (by decide) (by decide)
    rw [h.2.2.2.1]
    decide

/-- C6: for a corpus of `N` documents, `get_idf_dict` assigns to a token id
with document frequency `c` (duplicates inside one document counted once by
`process`'s set reduction) the weight `log((N+1)/(c+1))`; an id never seen
returns the defaultdict default `log((N+1)/1)`; and for fixed `N` the weight
is strictly decreasing in `c`. -/
theorem C6_idf_table (arr : List String) (tokenize : String → List String)
    (convert : List String → List ℤ) (nthreads : ℕ) (idx : ℤ) (c : ℕ)
    (hc : idf_count arr tokenize convert idx = c) :
    (get_idf_dict arr tokenize convert nthreads).val idx = idf_weight arr.length c ∧
    (c = 0 →
      (get_idf_dict arr tokenize convert nthreads).val idx =
        Real.log (((arr.length : ℝ) + 1) / 1)) ∧
    (∀ N c1 c2 : ℕ, c1 < c2 → idf_weight N c2 < idf_weight N c1) := by
  have hmono : ∀ N c1 c2 : ℕ, c1 < c2 → idf_weight N c2 < idf_weight N c1 := by
    intro N c1 c2 hlt
    unfold idf_weight
    have h1 : (0 : ℝ) < (N : ℝ) + 1 := by positivity
    have h2 : (0 : ℝ) < (c1 : ℝ) + 1 := by positivity
    have h3 : ((c1 : ℝ) + 1) < ((c2 : ℝ) + 1) := by
      have := (Nat.cast_lt (α := ℝ)).mpr hlt
      linarith
    refine Real.log_lt_log (by positivity) ?_
    exact div_lt_div_of_pos_left h1 h2 h3
  have hval : (get_idf_dict arr tokenize convert nthreads).val idx =
      idf_weight arr.length c := by
    unfold get_idf_dict DDict.val
    simp only [hc]
    by_cases h : 0 < c
    · rw [if_pos h]
      rfl
    · have hc0 : c = 0 := by omega
      subst hc0
      rw [if_neg h]
      unfold idf_weight
      norm_num
  refine ⟨hval, fun hc0 => ?_, hmono⟩
  subst hc0
  rw [hval]
  unfold idf_weight
  norm_num

theorem C6_idf_witness :
    idf_count ["a", "b"] (fun s => [s])
      (fun l => l.map (fun t => if t = "a" then (10 : ℤ)
        else if t = "[CLS]" then 1 else if t = "[SEP]" then 2 else 20)) 10 = 1 ∧
    (get_idf_dict ["a", "b"] (fun s => [s])
      (fun l => l.map (fun t => if t = "a" then (10 : ℤ)
        else if t = "[CLS]" then 1 else if t = "[SEP]" then 2 else 20)) 4).val 10 =
      idf_weight 2 1 ∧
    (0 : ℕ) < 1 ∧ idf_weight 2 1 < idf_weight 2 0 := by
  have h := C6_idf_table ["a", "b"] (fun s => [s])
    (fun l => l.map (fun t => if t = "a" then (10 : ℤ)
      else if t = "[CLS]" then 1 else if t = "[SEP]" then 2 else 20)) 4 10 1 (by decide)
  exact ⟨by decide, h.1, by decide, h.2.2 2 0 1 (by decide)⟩

/-! ### C9: read semantics of the IDF defaultdict. -/

theorem maxLen_map_map {α β : Type} (f : α → β) (l : List (List α)) :
    maxLen (l.map (List.map f)) = maxLen l := by
  unfold maxLen
  rw [List.map_map]
  congr 1
  refine List.map_congr_left ?_
  intro a _
  simp

/-- C9 counterexample: Python's `defaultdict` inserts on a missing-key read.
Reading key 3 of an empty IDF table (default weight 5) grows the entry map:
afterwards key 3 is present, so the claim "looking up an absent id does not
insert a new entry" is false of the code's table type. -/
theorem C9_insertion_counterexample :
    ((DDict.mk (fun _ => none) (5 : ℝ)).get 3).2.entries 3 ≠
      (DDict.mk (fun _ => none) (5 : ℝ)).entries 3 := by
  simp [DDict.get]

/-- C9 (amended): the IDF table's induced value function is immutable — a
missing key returns the default weight, and no sequence of lookups, nor the
collation stage (nor the embedding stage, which only reads through
collation), changes the value any key reads — although a missing-key read
does insert the default entry into the underlying map (see the
counterexample), so the "without inserting" part of the claim fails. -/
theorem C9_idf_read_only_values (d : DDict) (k k2 : ℤ) (ks : List ℤ)
    (rows : List (List ℤ)) (arr : List String)
    (M : List ℤ → List ℤ → List ℕ → List (List ℝ))
    (tokenize : String → List String) (numericalize : List String → List ℤ)
    (pad : String) (bs : ℤ) (h : d.entries k = none) :
    (d.get k).1 = d.dflt ∧
    ((d.get k).2).val k2 = d.val k2 ∧
    ((d.getMany ks).2).val k2 = d.val k2 ∧
    ((d.getRows rows).2).val k2 = d.val k2 ∧
    ((collate_idf arr tokenize numericalize d pad).2.2.2.2).val k2 = d.val k2 ∧
    ((get_bert_embedding arr M tokenize numericalize d bs).2.2.2.2).val k2 = d.val k2 := by
  have hcollate : ∀ p : String, (collate_idf arr tokenize numericalize d p).2.2.2.2 =
      (d.getRows (collate_ids arr tokenize numericalize)).2 := by
    intro p
    simp [collate_idf]
  have hembed : (get_bert_embedding arr M tokenize numericalize d bs).2.2.2.2 =
      (collate_idf arr tokenize numericalize d "[PAD]").2.2.2.2 := by
    simp [get_bert_embedding]
  refine ⟨?_, DDict.get_val d k k2, DDict.getMany_val d ks k2,
    DDict.getRows_val d rows k2, ?_, ?_⟩
  · unfold DDict.get
    rw [h]
  · rw [hcollate pad]
    exact DDict.getRows_val d _ k2
  · rw [hembed, hcollate]
    exact DDict.getRows_val d _ k2

theorem C9_idf_read_only_witness :
    (DDict.mk (fun _ => none) (5 : ℝ)).entries 3 = none ∧
    ((DDict.mk (fun _ => none) (5 : ℝ)).get 3).1 =
      (DDict.mk (fun _ => none) (5 : ℝ)).dflt ∧
    (((DDict.mk (fun _ => none) (5 : ℝ)).getMany [1, 2]).2).val 0 =
      (DDict.mk (fun _ => none) (5 : ℝ)).val 0 := by
  have h := C9_idf_read_only_values (DDict.mk (fun _ => none) (5 : ℝ)) 3 0 [1, 2]
    [[1]] ["a"] (fun _ _ _ => []) (fun s => [s]) (fun l => l.map (fun _ => 0))
    "[PAD]" (-1) rfl
  exact ⟨rfl, h.1, h.2.2.1⟩

/-! ### C3: the fill value of the padded IDF matrix. -/

/-- Every beyond-true-length position of the collated IDF-weight matrix holds
the pad token's NUMERIC ID reinterpreted as a float (the second `padding`
call in `collate_idf` is given `pad_token` itself as the fill value), not the
IDF weight of the pad token. -/
theorem collate_idf_pad_entry (arr : List String) (tokenize : String → List String)
    (numericalize : List String → List ℤ) (idf_dict : DDict) (pad : String)
    (i j : ℕ) (hi : i < arr.length)
    (hlen : ((collate_ids arr tokenize numericalize).getD i []).length ≤ j)
    (hj : j < maxLen (collate_ids arr tokenize numericalize)) :
    (((collate_idf arr tokenize numericalize idf_dict pad).2.1).getD i []).getD j 0 =
      (((numericalize [pad]).headD 0 : ℤ) : ℝ) := by
  have hidslen : (collate_ids arr tokenize numericalize).length = arr.length := by
    simp [collate_ids]
  have hproj : (collate_idf arr tokenize numericalize idf_dict pad).2.1 =
      (padding ((idf_dict.getRows (collate_ids arr tokenize numericalize)).1)
        (((numericalize [pad]).headD 0 : ℤ) : ℝ)).1 := by
    simp [collate_idf]
  rw [hproj, DDict.getRows_fst]
  set v := fun r : List ℤ => r.map idf_dict.val with hv
  set ids := collate_ids arr tokenize numericalize with hids
  have hmax : maxLen (ids.map v) = maxLen ids := maxLen_map_map _ ids
  have hi2 : i < (ids.map v).length := by
    rw [List.length_map, hidslen]
    exact hi
  have hrow : ((padding (ids.map v) (((numericalize [pad]).headD 0 : ℤ) : ℝ)).1).getD i [] =
      (v (ids.getD i [])) ++
        List.replicate (maxLen (ids.map v) - (v (ids.getD i [])).length)
          (((numericalize [pad]).headD 0 : ℤ) : ℝ) := by
    simp only [padding]
    rw [getD_map _ _ i (by simpa using hi2) [] []]
    rw [getD_map _ _ i (by rw [hidslen]; exact hi) [] []]
  have hrowlen : (v (ids.getD i [])).length = (ids.getD i []).length := by
    simp [hv]
  have hmem : ids.getD i [] ∈ ids := by
    rw [List.getD_eq_getElem ids [] (by rw [hidslen]; exact hi)]
    exact List.getElem_mem _
  have hle : (v (ids.getD i [])).length ≤ maxLen (ids.map v) := by
    rw [hrowlen, hmax]
    exact le_maxLen ids _ hmem
  rw [hrow, padded_row_getD _ _ _ _ _ hle]
  rw [if_neg (by omega), if_pos (by rw [hmax]; exact hj)]

/-- A toy tokenizer for concrete instances: "b" has one token, others none. -/
def toyTok : String → List String :=
  fun s => if s = "b" then ["t"] else []

/-- A toy numericalizer: `[PAD] ↦ 3`, `[CLS] ↦ 1`, `[SEP] ↦ 2`, others `4`. -/
def toyNum : List String → List ℤ :=
  fun l => l.map (fun t =>
    if t = "[PAD]" then 3 else if t = "[CLS]" then 1 else if t = "[SEP]" then 2 else 4)

/-- A toy IDF table: no entries, default weight 7. -/
noncomputable def toyDict : DDict := ⟨fun _ => none, 7⟩

/-- C3 (amended): every padded (beyond-true-length) position of the collated
IDF-weight matrix holds the pad token's numeric id reinterpreted as a float
(`padding(idf_weights, pad_token, dtype=float)`), NOT the IDF table's weight
for the pad token. -/
theorem C3_padded_idf_holds_pad_id (arr : List String)
    (tokenize : String → List String) (numericalize : List String → List ℤ)
    (idf_dict : DDict) (pad : String) (i j : ℕ) (hi : i < arr.length)
    (hlen : ((collate_ids arr tokenize numericalize).getD i []).length ≤ j)
    (hj : j < maxLen (collate_ids arr tokenize numericalize)) :
    (((collate_idf arr tokenize numericalize idf_dict pad).2.1).getD i []).getD j 0 =
      (((numericalize [pad]).headD 0 : ℤ) : ℝ) :=
  collate_idf_pad_entry arr tokenize numericalize idf_dict pad i j hi hlen hj

/-- C3 counterexample: with pad id 3 and an IDF table whose every lookup
returns 7, the padded position `(0,2)` of the IDF matrix holds `3.0` (the pad
id as a float), which differs from `7`, the IDF weight obtained by looking up
the pad token's id — refuting the claim as stated. -/
theorem C3_counterexample :
    ((((collate_idf ["a", "b"] toyTok toyNum toyDict "[PAD]").2.1).getD 0 []).getD 2 0) ≠
      toyDict.val 3 := by
  have h := collate_idf_pad_entry ["a", "b"] toyTok toyNum toyDict "[PAD]" 0 2
    (by decide) (by decide) (by decide)
  rw [h]
  have h2 : (toyNum ["[PAD]"]).headD 0 = 3 := by decide
  rw [h2]
  simp [toyDict, DDict.val]

theorem C3_padded_idf_witness :
    0 < (["a", "b"] : List String).length ∧
    ((collate_ids ["a", "b"] toyTok toyNum).getD 0 []).length ≤ 2 ∧
    2 < maxLen (collate_ids ["a", "b"] toyTok toyNum) ∧
    (((collate_idf ["a", "b"] toyTok toyNum toyDict "[PAD]").2.1).getD 0 []).getD 2 0 =
      (((toyNum ["[PAD]"]).headD 0 : ℤ) : ℝ) :=
  ⟨by decide, by decide, by decide,
    C3_padded_idf_holds_pad_id ["a", "b"] toyTok toyNum toyDict "[PAD]" 0 2
      (by decide) (by decide) (by decide)⟩

/-- C10: `bert_cos_score_idf` performs no length validation.  Called with 2
references, 4 hypotheses and `batch_size = 2`, the chunk loop ranges over
`range(0, len(refs), 2)` only, so the two extra hypotheses are silently
dropped: the call returns exactly the result of scoring the first two
hypotheses, a well-formed 2-row matrix, instead of failing fast. -/
theorem C10_no_length_validation (M : List ℤ → List ℤ → List ℕ → List (List ℝ))
    (Hdim : ℕ) (tokenize : String → List String)
    (numericalize : List String → List ℤ) (d : DDict) :
    bert_cos_score_idf M Hdim ["a", "b"] ["a", "b", "c", "d"]
        tokenize numericalize d 2 =
      bert_cos_score_idf M Hdim ["a", "b"] ["a", "b"]
        tokenize numericalize d 2 ∧
    (bert_cos_score_idf M Hdim ["a", "b"] ["a", "b", "c", "d"]
        tokenize numericalize d 2).length = 2 := by
  constructor
  · rfl
  · show (scoreChunk M Hdim ["a", "b"] ["a", "b"] tokenize numericalize d).1.length = 2
    simp only [scoreChunk]
    rw [List.length_ofFn]
    rfl

/-! ### Finite-valued inputs to the scorer.

The tensors fed to `greedy_cos_idf` by the pipeline are finite floats;
`finT2`/`finT3` inject real-valued index functions into `NF`. -/

/-- A finite-valued matrix. -/
def finT2 {B L : ℕ} (m : Fin B → Fin L → ℝ) : Fin B → Fin L → NF :=
  fun b j => NF.fin (m b j)

/-- A finite-valued order-3 tensor. -/
def finT3 {B L H : ℕ} (t : Fin B → Fin L → Fin H → ℝ) : Fin B → Fin L → Fin H → NF :=
  fun b j h => NF.fin (t b j h)

@[simp] theorem NF.add_fin_zero (x : NF) : NF.add x (NF.fin 0) = x := by
  cases x <;> simp [NF.add]

theorem fsum_one (f : Fin 1 → NF) : fsum f = f 0 := by
  show NF.add (f 0) (NF.fin 0) = f 0
  simp

theorem fsum_two (f : Fin 2 → NF) : fsum f = NF.add (f 0) (f 1) := by
  show NF.add (f 0) (NF.add (f 1) (NF.fin 0)) = _
  simp

theorem fsum_three (f : Fin 3 → NF) : fsum f = NF.add (f 0) (NF.add (f 1) (f 2)) := by
  show NF.add (f 0) (NF.add (f 1) (NF.add (f 2) (NF.fin 0))) = _
  simp

theorem fsum_four (f : Fin 4 → NF) :
    fsum f = NF.add (f 0) (NF.add (f 1) (NF.add (f 2) (f 3))) := by
  show NF.add (f 0) (NF.add (f 1) (NF.add (f 2) (NF.add (f 3) (NF.fin 0)))) = _
  simp

theorem fmax_one (f : Fin 1 → NF) : fmax f = f 0 := rfl

theorem fmax_two (f : Fin 2 → NF) : fmax f = NF.max (f 0) (f 1) := rfl

theorem fmax_three (f : Fin 3 → NF) : fmax f = NF.max (NF.max (f 0) (f 1)) (f 2) := rfl

theorem fmax_four (f : Fin 4 → NF) :
    fmax f = NF.max (NF.max (NF.max (f 0) (f 1)) (f 2)) (f 3) := rfl

/-! ### Values of the scorer's intermediates on finite inputs. -/

theorem l2norm_fin {H : ℕ} (e : Fin H → ℝ) :
    greedy.l2norm (fun x => NF.fin (e x)) = NF.fin (Real.sqrt (∑ x, e x * e x)) := by
  unfold greedy.l2norm
  have h1 : (fun x => NF.fin (e x) * NF.fin (e x)) = fun x => NF.fin (e x * e x) := by
    funext x
    rfl
  rw [h1, fsum_fin]
  exact NF.sqrt_fin_nonneg _ (Finset.sum_nonneg fun x _ => mul_self_nonneg _)

theorem sqrt_normSq_ne_zero {H : ℕ} (e : Fin H → ℝ) (h : (∑ x, e x * e x) ≠ 0) :
    Real.sqrt (∑ x, e x * e x) ≠ 0 := by
  have hpos : 0 < ∑ x, e x * e x :=
    lt_of_le_of_ne (Finset.sum_nonneg fun x _ => mul_self_nonneg _) (Ne.symm h)
  exact ne_of_gt (Real.sqrt_pos.mpr hpos)

theorem normEmb_fin {B L H : ℕ} (t : Fin B → Fin L → Fin H → ℝ)
    (b : Fin B) (j : Fin L) (x : Fin H) (h : (∑ y, t b j y * t b j y) ≠ 0) :
    greedy.normEmb (finT3 t) b j x =
      NF.fin (t b j x / Real.sqrt (∑ y, t b j y * t b j y)) := by
  unfold greedy.normEmb finT3
  rw [show (fun y => NF.fin (t b j y)) = fun y => NF.fin (t b j y) from rfl]
  rw [l2norm_fin (fun y => t b j y)]
  simp only [NF.div_def]
  exact NF.div_fin_fin _ _ (sqrt_normSq_ne_zero _ h)

theorem sim_fin {B Lr Lh H : ℕ} (re : Fin B → Fin Lr → Fin H → ℝ)
    (he : Fin B → Fin Lh → Fin H → ℝ)
    (hre : ∀ b k, (∑ y, re b k y * re b k y) ≠ 0)
    (hhe : ∀ b j, (∑ y, he b j y * he b j y) ≠ 0)
    (b : Fin B) (j : Fin Lh) (k : Fin Lr) :
    greedy.sim (finT3 re) (finT3 he) b j k =
      NF.fin (∑ x, (he b j x / Real.sqrt (∑ y, he b j y * he b j y)) *
        (re b k x / Real.sqrt (∑ y, re b k y * re b k y))) := by
  unfold greedy.sim
  have h1 : (fun x => greedy.normEmb (finT3 he) b j x * greedy.normEmb (finT3 re) b k x) =
      fun x => NF.fin ((he b j x / Real.sqrt (∑ y, he b j y * he b j y)) *
        (re b k x / Real.sqrt (∑ y, re b k y * re b k y))) := by
    funext x
    rw [NF.mul_def, normEmb_fin he b j x (hhe b j), normEmb_fin re b k x (hre b k)]
    rfl
  rw [h1, fsum_fin]

/-- With 0/1 masks and nonzero-norm finite embeddings, the multiplicative
masking `sim * masks` equals the spec's "sim zeroed where either mask is 0". -/
theorem masked_sim_if {B Lr Lh H : ℕ} (re : Fin B → Fin Lr → Fin H → ℝ)
    (rm : Fin B → Fin Lr → ℝ) (he : Fin B → Fin Lh → Fin H → ℝ)
    (hm : Fin B → Fin Lh → ℝ)
    (hre : ∀ b k, (∑ y, re b k y * re b k y) ≠ 0)
    (hhe : ∀ b j, (∑ y, he b j y * he b j y) ≠ 0)
    (hrm : ∀ b k, rm b k = 0 ∨ rm b k = 1)
    (hhm : ∀ b j, hm b j = 0 ∨ hm b j = 1)
    (b : Fin B) (j : Fin Lh) (k : Fin Lr) :
    greedy.masked_sim (finT3 re) (finT2 rm) (finT3 he) (finT2 hm) b j k =
      if hm b j = 1 ∧ rm b k = 1
        then greedy.sim (finT3 re) (finT3 he) b j k else NF.fin 0 := by
  unfold greedy.masked_sim greedy.maskProd
  rw [sim_fin re he hre hhe b j k]
  show NF.fin _ * (finT2 hm b j * finT2 rm b k) = _
  unfold finT2
  rcases hhm b j with h1 | h1 <;> rcases hrm b k with h2 | h2 <;> rw [h1, h2]
  · rw [if_neg (by norm_num)]
    simp only [NF.mul_def, NF.mul_fin_fin, NF.fin_inj]
    ring
  · rw [if_neg (by norm_num)]
    simp only [NF.mul_def, NF.mul_fin_fin, NF.fin_inj]
    ring
  · rw [if_neg (by norm_num)]
    simp only [NF.mul_def, NF.mul_fin_fin, NF.fin_inj]
    ring
  · rw [if_pos ⟨rfl, rfl⟩]
    simp only [NF.mul_def, NF.mul_fin_fin, NF.fin_inj]
    ring

theorem precision_scale_fin {B Lh : ℕ} (hi : Fin B → Fin Lh → ℝ)
    (hhi : ∀ b, (∑ j, hi b j) ≠ 0) (b : Fin B) (j : Fin Lh) :
    greedy.precision_scale (finT2 hi) b j = NF.fin (hi b j / ∑ j2, hi b j2) := by
  unfold greedy.precision_scale finT2
  rw [fsum_fin, NF.div_def]
  exact NF.div_fin_fin _ _ (hhi b)

theorem recall_scale_raw_fin {B Lr : ℕ} (ri : Fin B → Fin Lr → ℝ)
    (hri : ∀ b, (∑ k, ri b k) ≠ 0) (b : Fin B) (k : Fin Lr) :
    greedy.recall_scale_raw (finT2 ri) b k = NF.fin (ri b k / ∑ k2, ri b k2) := by
  unfold greedy.recall_scale_raw finT2
  rw [fsum_fin, NF.div_def]
  exact NF.div_fin_fin _ _ (hri b)

theorem recall_scale_fin {B Lr : ℕ} (ri : Fin B → Fin Lr → ℝ)
    (hri : ∀ b, (∑ k, ri b k) ≠ 0) (b : Fin B) (k : Fin Lr) :
    greedy.recall_scale (finT2 ri) b k = NF.fin (ri b k / ∑ k2, ri b k2) := by
  unfold greedy.recall_scale
  rw [recall_scale_raw_fin ri hri b k]
  simp

theorem scale_sum_one {n : ℕ} (w : Fin n → ℝ) (h : (∑ j, w j) ≠ 0) :
    fsum (fun j => NF.fin (w j / ∑ j2, w j2)) = NF.fin 1 := by
  rw [fsum_fin, ← Finset.sum_div, div_self h]

/-- C1: on finite inputs with 0/1 masks, nonzero-norm embedding vectors and
nonzero IDF row sums, `greedy_cos_idf` computes `word_precision[b][j]` as the
max over `k` of the masked cosine-similarity matrix (embeddings
L2-normalized, sim zeroed where either mask is 0), `word_recall[b][k]` as the
max over `j`, `P[b]` as Σ_j `word_precision[b][j]` times the hyp IDF row
normalized to sum to 1 (the normalized row indeed sums to 1), and `R[b]`
analogously from the reference side. -/
theorem C1_greedy_formulas {B Lr Lh H : ℕ}
    (re : Fin B → Fin Lr → Fin H → ℝ) (rm : Fin B → Fin Lr → ℝ)
    (ri : Fin B → Fin Lr → ℝ) (he : Fin B → Fin Lh → Fin H → ℝ)
    (hm : Fin B → Fin Lh → ℝ) (hi : Fin B → Fin Lh → ℝ)
    (hre : ∀ b k, (∑ y, re b k y * re b k y) ≠ 0)
    (hhe : ∀ b j, (∑ y, he b j y * he b j y) ≠ 0)
    (hrm : ∀ b k, rm b k = 0 ∨ rm b k = 1)
    (hhm : ∀ b j, hm b j = 0 ∨ hm b j = 1)
    (hri : ∀ b, (∑ k, ri b k) ≠ 0)
    (hhi : ∀ b, (∑ j, hi b j) ≠ 0) :
    (∀ b j, greedy.word_precision (finT3 re) (finT2 rm) (finT3 he) (finT2 hm) b j =
      fmax (fun k => if hm b j = 1 ∧ rm b k = 1
        then greedy.sim (finT3 re) (finT3 he) b j k else NF.fin 0)) ∧
    (∀ b k, greedy.word_recall (finT3 re) (finT2 rm) (finT3 he) (finT2 hm) b k =
      fmax (fun j => if hm b j = 1 ∧ rm b k = 1
        then greedy.sim (finT3 re) (finT3 he) b j k else NF.fin 0)) ∧
    (∀ b, greedy.P (finT3 re) (finT2 rm) (finT3 he) (finT2 hm) (finT2 hi) b =
      fsum (fun j =>
        greedy.word_precision (finT3 re) (finT2 rm) (finT3 he) (finT2 hm) b j *
          NF.fin (hi b j / ∑ j2, hi b j2)) ∧
      fsum (fun j => greedy.precision_scale (finT2 hi) b j) = NF.fin 1) ∧
    (∀ b, greedy.R (finT3 re) (finT2 rm) (finT2 ri) (finT3 he) (finT2 hm) b =
      fsum (fun k =>
        greedy.word_recall (finT3 re) (finT2 rm) (finT3 he) (finT2 hm) b k *
          NF.fin (ri b k / ∑ k2, ri b k2)) ∧
      fsum (fun k => greedy.recall_scale (finT2 ri) b k) = NF.fin 1) := by
  refine ⟨?_, ?_, ?_, ?_⟩
  · intro b j
    unfold greedy.word_precision
    exact congrArg fmax (funext fun k => masked_sim_if re rm he hm hre hhe hrm hhm b j k)
  · intro b k
    unfold greedy.word_recall
    exact congrArg fmax (funext fun j => masked_sim_if re rm he hm hre hhe hrm hhm b j k)
  · intro b
    constructor
    · unfold greedy.P
      exact congrArg fsum (funext fun j => by rw [precision_scale_fin hi hhi b j])
    · rw [congrArg fsum (funext fun j => precision_scale_fin hi hhi b j)]
      exact scale_sum_one _ (hhi b)
  · intro b
    constructor
    · unfold greedy.R
      exact congrArg fsum (funext fun k => by rw [recall_scale_fin ri hri b k])
    · rw [congrArg fsum (funext fun k => recall_scale_fin ri hri b k)]
      exact scale_sum_one _ (hri b)

theorem C1_greedy_witness :
    (∀ b k : Fin 1, (∑ y : Fin 1, (1 : ℝ) * 1) ≠ 0) ∧
    (∀ b : Fin 1, (∑ k : Fin 1, (1 : ℝ)) ≠ 0) ∧
    (∀ b k : Fin 1, (1 : ℝ) = 0 ∨ (1 : ℝ) = 1) ∧
    fsum (fun j : Fin 1 =>
      greedy.precision_scale (finT2 (fun _ _ : Fin 1 => (1 : ℝ))) 0 j) = NF.fin 1 := by
  refine ⟨fun b k => by simp [Fin.sum_univ_one], fun b => by simp [Fin.sum_univ_one],
    fun b k => Or.inr rfl, ?_⟩
  have h := C1_greedy_formulas
    ((fun _ _ _ => (1 : ℝ)) : Fin 1 → Fin 1 → Fin 1 → ℝ)
    ((fun _ _ => (1 : ℝ)) : Fin 1 → Fin 1 → ℝ)
    ((fun _ _ => (1 : ℝ)) : Fin 1 → Fin 1 → ℝ)
    ((fun _ _ _ => (1 : ℝ)) : Fin 1 → Fin 1 → Fin 1 → ℝ)
    ((fun _ _ => (1 : ℝ)) : Fin 1 → Fin 1 → ℝ)
    ((fun _ _ => (1 : ℝ)) : Fin 1 → Fin 1 → ℝ)
    (fun b k => by simp [Fin.sum_univ_one]) (fun b j => by simp [Fin.sum_univ_one])
    (fun b k => Or.inr rfl) (fun b j => Or.inr rfl)
    (fun b => by simp [Fin.sum_univ_one]) (fun b => by simp [Fin.sum_univ_one])
  exact (h.2.2.1 0).2

/-- A sum that is exactly finite has finite summands. -/
theorem NF.add_eq_fin {x y : NF} {c : ℝ} (h : NF.add x y = NF.fin c) :
    ∃ a b : ℝ, x = NF.fin a ∧ y = NF.fin b ∧ a + b = c := by
  cases x with
  | fin a =>
      cases y with
      | fin b => exact ⟨a, b, rfl, rfl, by simpa using h⟩
      | pinf => simp [NF.add] at h
      | ninf => simp [NF.add] at h
      | nan => simp [NF.add] at h
  | pinf => cases y <;> simp [NF.add] at h
  | ninf => cases y <;> simp [NF.add] at h
  | nan => cases y <;> simp [NF.add] at h

/-- C2 (amended): `greedy_cos_idf` returns `F1[b] = 2*P[b]*R[b] / (P[b]+R[b])`
verbatim — no exception, no substitution.  When `P[b]+R[b]` is exactly zero,
the returned `F1[b]` is NaN precisely when `P[b] = 0` (the `0/0` case); when
`P[b]+R[b] = 0` with `P[b] ≠ 0`, the division is `(negative)/0` and `F1[b]`
is `-inf`, not NaN; in every case `F1[b]` is non-finite and returned as-is. -/
theorem C2_f1_semantics {B Lr Lh H : ℕ}
    (re : Fin B → Fin Lr → Fin H → NF) (rm : Fin B → Fin Lr → NF)
    (ri : Fin B → Fin Lr → NF) (he : Fin B → Fin Lh → Fin H → NF)
    (hm : Fin B → Fin Lh → NF) (hi : Fin B → Fin Lh → NF) (b : Fin B) :
    greedy.F re rm ri he hm hi b =
      NF.fin 2 * greedy.P re rm he hm hi b * greedy.R re rm ri he hm b /
        (greedy.P re rm he hm hi b + greedy.R re rm ri he hm b) ∧
    (greedy.P re rm he hm hi b + greedy.R re rm ri he hm b = NF.fin 0 →
      (greedy.F re rm ri he hm hi b = NF.nan ↔ greedy.P re rm he hm hi b = NF.fin 0) ∧
      (greedy.P re rm he hm hi b ≠ NF.fin 0 →
        greedy.F re rm ri he hm hi b = NF.ninf)) := by
  constructor
  · rfl
  · intro hsum
    obtain ⟨p, r, hp, hr, hpr⟩ := NF.add_eq_fin (by simpa using hsum)
    have hF : greedy.F re rm ri he hm hi b =
        NF.div (NF.fin (2 * p * r)) (NF.fin 0) := by
      show NF.fin 2 * greedy.P re rm he hm hi b * greedy.R re rm ri he hm b /
          (greedy.P re rm he hm hi b + greedy.R re rm ri he hm b) = _
      rw [hp, hr]
      simp only [NF.mul_def, NF.add_def, NF.div_def, NF.mul_fin_fin, NF.add_fin_fin]
      rw [hpr]
    have hnan : greedy.P re rm he hm hi b = NF.fin 0 →
        greedy.F re rm ri he hm hi b = NF.nan := by
      intro hp0
      rw [hp0] at hp
      have hpz : p = 0 := by
        have := NF.fin_injective hp.symm
        linarith [this]
      rw [hF, NF.div_fin_zero, if_pos (by rw [hpz]; ring)]
    have hninf : greedy.P re rm he hm hi b ≠ NF.fin 0 →
        greedy.F re rm ri he hm hi b = NF.ninf := by
      intro hpne
      have hpz : p ≠ 0 := by
        intro h0
        apply hpne
        rw [hp, h0]
      have hr0 : r = -p := by linarith
      have hpp : 0 < p * p := mul_self_pos.mpr hpz
      have hneg : 2 * p * r < 0 := by
        rw [hr0]
        nlinarith
      rw [hF, NF.div_fin_zero, if_neg (by linarith), if_neg (by linarith)]
    refine ⟨⟨fun hFn => ?_, hnan⟩, hninf⟩
    by_contra hpne
    exact NF.noConfusion ((hninf hpne).symm.trans hFn)

/-- Counterexample data for C2: unit hypothesis embeddings `e1`, `e2`. -/
noncomputable def c2He : Fin 1 → Fin 2 → Fin 2 → ℝ := fun _ => ![![1, 0], ![0, 1]]

/-- Counterexample data for C2: unit reference embeddings `(3/5,-4/5)`, `(4/5,-3/5)`. -/
noncomputable def c2Re : Fin 1 → Fin 2 → Fin 2 → ℝ :=
  fun _ => ![![3 / 5, -(4 / 5)], ![4 / 5, -(3 / 5)]]

/-- Counterexample data: all-ones masks. -/
noncomputable def c2Ones : Fin 1 → Fin 2 → ℝ := fun _ _ => 1

/-- Counterexample data: hypothesis IDF row `[0, 1]`. -/
noncomputable def c2Hi : Fin 1 → Fin 2 → ℝ := fun _ => ![0, 1]

/-- Counterexample data: reference IDF row `[1, 0]`. -/
noncomputable def c2Ri : Fin 1 → Fin 2 → ℝ := fun _ => ![1, 0]

theorem c2_norm_he : ∀ (b : Fin 1) (j : Fin 2), (∑ y, c2He b j y * c2He b j y) ≠ 0 := by
  intro b j
  fin_cases j <;> norm_num [c2He, Fin.sum_univ_two]

theorem c2_norm_re : ∀ (b : Fin 1) (k : Fin 2), (∑ y, c2Re b k y * c2Re b k y) ≠ 0 := by
  intro b k
  fin_cases k <;> norm_num [c2Re, Fin.sum_univ_two]

theorem c2_sim_val :
    greedy.sim (finT3 c2Re) (finT3 c2He) 0 =
      fun j k => NF.fin (![![3 / 5, 4 / 5], ![-(4 / 5), -(3 / 5)]] j k) := by
  funext j k
  rw [sim_fin c2Re c2He c2_norm_re c2_norm_he 0 j k]
  congr 1
  fin_cases j <;> fin_cases k <;>
    norm_num [c2He, c2Re, Fin.sum_univ_two]

theorem c2_P_val :
    greedy.P (finT3 c2Re) (finT2 c2Ones) (finT3 c2He) (finT2 c2Ones) (finT2 c2Hi) 0 =
      NF.fin (-(3 / 5)) := by
  unfold greedy.P
  have hmask : ∀ (j k : Fin 2),
      greedy.masked_sim (finT3 c2Re) (finT2 c2Ones) (finT3 c2He) (finT2 c2Ones) 0 j k =
        NF.fin (![![3 / 5, 4 / 5], ![-(4 / 5), -(3 / 5)]] j k) := by
    intro j k
    rw [masked_sim_if c2Re c2Ones c2He c2Ones c2_norm_re c2_norm_he
      (fun b k2 => by fin_cases k2 <;> simp [c2Ones]) (fun b j2 => by fin_cases j2 <;> simp [c2Ones]) 0 j k]
    rw [if_pos ⟨by simp [c2Ones], by simp [c2Ones]⟩]
    rw [c2_sim_val]
  have hwp : ∀ j : Fin 2,
      greedy.word_precision (finT3 c2Re) (finT2 c2Ones) (finT3 c2He) (finT2 c2Ones) 0 j =
        NF.fin (![4 / 5, -(3 / 5)] j) := by
    intro j
    unfold greedy.word_precision
    rw [fmax_two]
    rw [hmask j 0, hmask j 1]
    fin_cases j <;>
      simp only [NF.max_fin_fin] <;>
      norm_num
  have hscale : ∀ j : Fin 2,
      greedy.precision_scale (finT2 c2Hi) 0 j = NF.fin (![0, 1] j) := by
    intro j
    rw [precision_scale_fin c2Hi (fun b => by norm_num [c2Hi, Fin.sum_univ_two]) 0 j]
    fin_cases j <;> norm_num [c2Hi, Fin.sum_univ_two]
  rw [fsum_two]
  rw [hwp 0, hwp 1, hscale 0, hscale 1]
  simp only [NF.mul_def, NF.mul_fin_fin, NF.add_fin_fin]
  norm_num

theorem c2_R_val :
    greedy.R (finT3 c2Re) (finT2 c2Ones) (finT2 c2Ri) (finT3 c2He) (finT2 c2Ones) 0 =
      NF.fin (3 / 5) := by
  unfold greedy.R
  have hmask : ∀ (j k : Fin 2),
      greedy.masked_sim (finT3 c2Re) (finT2 c2Ones) (finT3 c2He) (finT2 c2Ones) 0 j k =
        NF.fin (![![3 / 5, 4 / 5], ![-(4 / 5), -(3 / 5)]] j k) := by
    intro j k
    rw [masked_sim_if c2Re c2Ones c2He c2Ones c2_norm_re c2_norm_he
      (fun b k2 => by fin_cases k2 <;> simp [c2Ones]) (fun b j2 => by fin_cases j2 <;> simp [c2Ones]) 0 j k]
    rw [if_pos ⟨by simp [c2Ones], by simp [c2Ones]⟩]
    rw [c2_sim_val]
  have hwr : ∀ k : Fin 2,
      greedy.word_recall (finT3 c2Re) (finT2 c2Ones) (finT3 c2He) (finT2 c2Ones) 0 k =
        NF.fin (![3 / 5, 4 / 5] k) := by
    intro k
    unfold greedy.word_recall
    rw [fmax_two]
    rw [hmask 0 k, hmask 1 k]
    fin_cases k <;>
      simp only [NF.max_fin_fin] <;>
      norm_num
  have hscale : ∀ k : Fin 2,
      greedy.recall_scale (finT2 c2Ri) 0 k = NF.fin (![1, 0] k) := by
    intro k
    rw [recall_scale_fin c2Ri (fun b => by norm_num [c2Ri, Fin.sum_univ_two]) 0 k]
    fin_cases k <;> norm_num [c2Ri, Fin.sum_univ_two]
  rw [fsum_two]
  rw [hwr 0, hwr 1, hscale 0, hscale 1]
  simp only [NF.mul_def, NF.mul_fin_fin, NF.add_fin_fin]
  norm_num

/-- C2 counterexample: a concrete input on which `P[0] + R[0]` is exactly
zero (`P = -3/5`, `R = 3/5`) yet the returned `F1[0]` is `-inf`, not NaN —
refuting the claim that `P+R = 0` always yields NaN. -/
theorem C2_counterexample :
    greedy.P (finT3 c2Re) (finT2 c2Ones) (finT3 c2He) (finT2 c2Ones) (finT2 c2Hi) 0 +
      greedy.R (finT3 c2Re) (finT2 c2Ones) (finT2 c2Ri) (finT3 c2He) (finT2 c2Ones) 0 =
        NF.fin 0 ∧
    greedy.F (finT3 c2Re) (finT2 c2Ones) (finT2 c2Ri) (finT3 c2He) (finT2 c2Ones)
        (finT2 c2Hi) 0 = NF.ninf ∧
    NF.ninf ≠ NF.nan := by
  have hsum : greedy.P (finT3 c2Re) (finT2 c2Ones) (finT3 c2He) (finT2 c2Ones) (finT2 c2Hi) 0 +
      greedy.R (finT3 c2Re) (finT2 c2Ones) (finT2 c2Ri) (finT3 c2He) (finT2 c2Ones) 0 =
        NF.fin 0 := by
    rw [c2_P_val, c2_R_val]
    simp only [NF.add_def, NF.add_fin_fin]
    norm_num
  refine ⟨hsum, ?_, by simp⟩
  show NF.fin 2 * greedy.P (finT3 c2Re) (finT2 c2Ones) (finT3 c2He) (finT2 c2Ones) (finT2 c2Hi) 0 *
      greedy.R (finT3 c2Re) (finT2 c2Ones) (finT2 c2Ri) (finT3 c2He) (finT2 c2Ones) 0 /
      (greedy.P (finT3 c2Re) (finT2 c2Ones) (finT3 c2He) (finT2 c2Ones) (finT2 c2Hi) 0 +
        greedy.R (finT3 c2Re) (finT2 c2Ones) (finT2 c2Ri) (finT3 c2He) (finT2 c2Ones) 0) = NF.ninf
  rw [hsum, c2_P_val, c2_R_val]
  simp only [NF.mul_def, NF.div_def, NF.mul_fin_fin]
  rw [NF.div_fin_zero, if_neg (by norm_num), if_neg (by norm_num)]

/-- Witness data for C2: hypothesis embedding `(1,0)`, orthogonal to the ref. -/
noncomputable def c2bHe : Fin 1 → Fin 1 → Fin 2 → ℝ := fun _ _ => ![1, 0]

/-- Witness data for C2: reference embedding `(0,1)`. -/
noncomputable def c2bRe : Fin 1 → Fin 1 → Fin 2 → ℝ := fun _ _ => ![0, 1]

/-- Witness data for C2: the all-ones `1×1` matrix. -/
noncomputable def c2bOne : Fin 1 → Fin 1 → ℝ := fun _ _ => 1

theorem c2b_P_val :
    greedy.P (finT3 c2bRe) (finT2 c2bOne) (finT3 c2bHe) (finT2 c2bOne) (finT2 c2bOne) 0 =
      NF.fin 0 := by
  unfold greedy.P
  have hre : ∀ (b k : Fin 1), (∑ y, c2bRe b k y * c2bRe b k y) ≠ 0 := by
    intro b k
    norm_num [c2bRe, Fin.sum_univ_two]
  have hhe : ∀ (b j : Fin 1), (∑ y, c2bHe b j y * c2bHe b j y) ≠ 0 := by
    intro b j
    norm_num [c2bHe, Fin.sum_univ_two]
  have hmask : greedy.masked_sim (finT3 c2bRe) (finT2 c2bOne) (finT3 c2bHe) (finT2 c2bOne)
      0 0 0 = NF.fin 0 := by
    rw [masked_sim_if c2bRe c2bOne c2bHe c2bOne hre hhe
      (fun b k => Or.inr rfl) (fun b j => Or.inr rfl) 0 0 0]
    rw [if_pos ⟨rfl, rfl⟩, sim_fin c2bRe c2bHe hre hhe 0 0 0]
    congr 1
    norm_num [c2bHe, c2bRe, Fin.sum_univ_two]
  rw [fsum_one]
  unfold greedy.word_precision
  rw [fmax_one, hmask]
  rw [precision_scale_fin c2bOne (fun b => by norm_num [c2bOne, Fin.sum_univ_one]) 0 0]
  simp only [NF.mul_def, NF.mul_fin_fin]
  norm_num [c2bOne]

theorem c2b_R_val :
    greedy.R (finT3 c2bRe) (finT2 c2bOne) (finT2 c2bOne) (finT3 c2bHe) (finT2 c2bOne) 0 =
      NF.fin 0 := by
  unfold greedy.R
  have hre : ∀ (b k : Fin 1), (∑ y, c2bRe b k y * c2bRe b k y) ≠ 0 := by
    intro b k
    norm_num [c2bRe, Fin.sum_univ_two]
  have hhe : ∀ (b j : Fin 1), (∑ y, c2bHe b j y * c2bHe b j y) ≠ 0 := by
    intro b j
    norm_num [c2bHe, Fin.sum_univ_two]
  have hmask : greedy.masked_sim (finT3 c2bRe) (finT2 c2bOne) (finT3 c2bHe) (finT2 c2bOne)
      0 0 0 = NF.fin 0 := by
    rw [masked_sim_if c2bRe c2bOne c2bHe c2bOne hre hhe
      (fun b k => Or.inr rfl) (fun b j => Or.inr rfl) 0 0 0]
    rw [if_pos ⟨rfl, rfl⟩, sim_fin c2bRe c2bHe hre hhe 0 0 0]
    congr 1
    norm_num [c2bHe, c2bRe, Fin.sum_univ_two]
  rw [fsum_one]
  unfold greedy.word_recall
  rw [fmax_one, hmask]
  rw [recall_scale_fin c2bOne (fun b => by norm_num [c2bOne, Fin.sum_univ_one]) 0 0]
  simp only [NF.mul_def, NF.mul_fin_fin]
  norm_num [c2bOne]

theorem C2_f1_witness :
    (greedy.P (finT3 c2bRe) (finT2 c2bOne) (finT3 c2bHe) (finT2 c2bOne) (finT2 c2bOne) 0 +
      greedy.R (finT3 c2bRe) (finT2 c2bOne) (finT2 c2bOne) (finT3 c2bHe) (finT2 c2bOne) 0 =
        NF.fin 0 ∧
    greedy.P (finT3 c2bRe) (finT2 c2bOne) (finT3 c2bHe) (finT2 c2bOne) (finT2 c2bOne) 0 =
      NF.fin 0 ∧
    greedy.F (finT3 c2bRe) (finT2 c2bOne) (finT2 c2bOne) (finT3 c2bHe) (finT2 c2bOne)
      (finT2 c2bOne) 0 = NF.nan) ∧
    (greedy.P (finT3 c2Re) (finT2 c2Ones) (finT3 c2He) (finT2 c2Ones) (finT2 c2Hi) 0 +
      greedy.R (finT3 c2Re) (finT2 c2Ones) (finT2 c2Ri) (finT3 c2He) (finT2 c2Ones) 0 =
        NF.fin 0 ∧
    greedy.P (finT3 c2Re) (finT2 c2Ones) (finT3 c2He) (finT2 c2Ones) (finT2 c2Hi) 0 ≠
      NF.fin 0 ∧
    greedy.F (finT3 c2Re) (finT2 c2Ones) (finT2 c2Ri) (finT3 c2He) (finT2 c2Ones)
      (finT2 c2Hi) 0 = NF.ninf) := by
  have hsum : greedy.P (finT3 c2bRe) (finT2 c2bOne) (finT3 c2bHe) (finT2 c2bOne)
      (finT2 c2bOne) 0 +
      greedy.R (finT3 c2bRe) (finT2 c2bOne) (finT2 c2bOne) (finT3 c2bHe) (finT2 c2bOne) 0 =
        NF.fin 0 := by
    rw [c2b_P_val, c2b_R_val]
    simp only [NF.add_def, NF.add_fin_fin]
    norm_num
  have h := C2_f1_semantics (finT3 c2bRe) (finT2 c2bOne) (finT2 c2bOne) (finT3 c2bHe)
    (finT2 c2bOne) (finT2 c2bOne) 0
  have hsum2 : greedy.P (finT3 c2Re) (finT2 c2Ones) (finT3 c2He) (finT2 c2Ones)
      (finT2 c2Hi) 0 +
      greedy.R (finT3 c2Re) (finT2 c2Ones) (finT2 c2Ri) (finT3 c2He) (finT2 c2Ones) 0 =
        NF.fin 0 := by
    rw [c2_P_val, c2_R_val]
    simp only [NF.add_def, NF.add_fin_fin]
    norm_num
  have hne : greedy.P (finT3 c2Re) (finT2 c2Ones) (finT3 c2He) (finT2 c2Ones)
      (finT2 c2Hi) 0 ≠ NF.fin 0 := by
    rw [c2_P_val]
    intro hc
    have := NF.fin_injective hc
    norm_num at this
  have h2 := C2_f1_semantics (finT3 c2Re) (finT2 c2Ones) (finT2 c2Ri) (finT3 c2He)
    (finT2 c2Ones) (finT2 c2Hi) 0
  exact ⟨⟨hsum, c2b_P_val, (h.2 hsum).1.mpr c2b_P_val⟩,
    hsum2, hne, (h2.2 hsum2).2 hne⟩

/-- Swapping the reference and hypothesis arguments transposes the masked
similarity matrix exactly (multiplication of values is commutative). -/
theorem masked_sim_swap {B Lr Lh H : ℕ}
    (re : Fin B → Fin Lr → Fin H → NF) (rm : Fin B → Fin Lr → NF)
    (he : Fin B → Fin Lh → Fin H → NF) (hm : Fin B → Fin Lh → NF)
    (b : Fin B) (j : Fin Lh) (k : Fin Lr) :
    greedy.masked_sim he hm re rm b k j = greedy.masked_sim re rm he hm b j k := by
  unfold greedy.masked_sim greedy.sim greedy.maskProd
  simp only [NF.mul_def]
  congr 1
  · exact congrArg fsum (funext fun x => NF.mulComm _ _)
  · exact NF.mulComm _ _

/-- C5 (amended): swapping the reference and hypothesis arguments swaps
precision and recall — `R(ref,hyp)[b] = P(hyp,ref)[b]` — PROVIDED the
reference IDF rows are finite with nonzero sums, so that the recall-side
NaN→1e-8 replacement is a no-op.  (The counterexample shows the claimed
unconditional identity fails when a ref IDF row sums to zero, because only
the recall side replaces NaN.) -/
theorem C5_swap_identity {B Lr Lh H : ℕ}
    (re : Fin B → Fin Lr → Fin H → NF) (rm : Fin B → Fin Lr → NF)
    (he : Fin B → Fin Lh → Fin H → NF) (hm : Fin B → Fin Lh → NF)
    (ri : Fin B → Fin Lr → ℝ) (hri : ∀ b, (∑ k, ri b k) ≠ 0) (b : Fin B) :
    greedy.R re rm (finT2 ri) he hm b = greedy.P he hm re rm (finT2 ri) b := by
  unfold greedy.R greedy.P
  refine congrArg fsum (funext fun k => ?_)
  simp only [NF.mul_def]
  congr 1
  · unfold greedy.word_recall greedy.word_precision
    exact congrArg fmax (funext fun j => (masked_sim_swap re rm he hm b j k).symm)
  · rw [recall_scale_fin ri hri b k, precision_scale_fin ri hri b k]

/-- Counterexample data for C5: the all-ones `1×1×1` embedding. -/
noncomputable def c5e : Fin 1 → Fin 1 → Fin 1 → ℝ := fun _ _ _ => 1

/-- Counterexample data for C5: the all-zero IDF row. -/
noncomputable def c5z : Fin 1 → Fin 1 → ℝ := fun _ _ => 0

theorem c5_norm : ∀ (b j : Fin 1), (∑ y, c5e b j y * c5e b j y) ≠ 0 := by
  intro b j
  norm_num [c5e, Fin.sum_univ_one]

theorem c5_wordsim :
    greedy.masked_sim (finT3 c5e) (finT2 c2bOne) (finT3 c5e) (finT2 c2bOne) 0 0 0 =
      NF.fin 1 := by
  rw [masked_sim_if c5e c2bOne c5e c2bOne c5_norm c5_norm
    (fun b k => Or.inr rfl) (fun b j => Or.inr rfl) 0 0 0]
  rw [if_pos ⟨rfl, rfl⟩, sim_fin c5e c5e c5_norm c5_norm 0 0 0]
  congr 1
  norm_num [c5e, Fin.sum_univ_one]

/-- C5 counterexample: with an all-zero reference IDF row, the original call
returns `R = 1e-8` (its NaN scale is replaced), but the swapped call's
precision is NaN (no replacement on the precision side), so
`R(ref,hyp) ≠ P(hyp,ref)`. -/
theorem C5_counterexample :
    greedy.R (finT3 c5e) (finT2 c2bOne) (finT2 c5z) (finT3 c5e) (finT2 c2bOne) 0 =
      NF.fin (1 / 100000000) ∧
    greedy.P (finT3 c5e) (finT2 c2bOne) (finT3 c5e) (finT2 c2bOne) (finT2 c5z) 0 =
      NF.nan ∧
    NF.fin (1 / 100000000) ≠ NF.nan := by
  have hscale_raw : greedy.recall_scale_raw (finT2 c5z) (0 : Fin 1) (0 : Fin 1) = NF.nan := by
    unfold greedy.recall_scale_raw
    rw [fsum_one]
    show NF.div (NF.fin (c5z 0 0)) (NF.fin (c5z 0 0)) = NF.nan
    rw [show c5z 0 0 = 0 from rfl, NF.div_fin_zero, if_pos rfl]
  refine ⟨?_, ?_, by simp⟩
  · unfold greedy.R
    rw [fsum_one]
    unfold greedy.word_recall
    rw [fmax_one, c5_wordsim]
    unfold greedy.recall_scale
    rw [hscale_raw]
    simp only [NF.isnan_nan, if_true, NF.mul_def, NF.mul_fin_fin]
    norm_num
  · unfold greedy.P
    rw [fsum_one]
    unfold greedy.word_precision
    rw [fmax_one]
    rw [show greedy.masked_sim (finT3 c5e) (finT2 c2bOne) (finT3 c5e) (finT2 c2bOne) 0 0 0 =
      NF.fin 1 from c5_wordsim]
    have hps : greedy.precision_scale (finT2 c5z) (0 : Fin 1) (0 : Fin 1) = NF.nan := by
      unfold greedy.precision_scale
      rw [fsum_one]
      show NF.div (NF.fin (c5z 0 0)) (NF.fin (c5z 0 0)) = NF.nan
      rw [show c5z 0 0 = 0 from rfl, NF.div_fin_zero, if_pos rfl]
    rw [hps]
    rfl

theorem C5_swap_witness :
    (∀ b : Fin 1, (∑ k : Fin 1, c2bOne b k) ≠ 0) ∧
    greedy.R (finT3 c5e) (finT2 c2bOne) (finT2 c2bOne) (finT3 c5e) (finT2 c2bOne) 0 =
      greedy.P (finT3 c5e) (finT2 c2bOne) (finT3 c5e) (finT2 c2bOne) (finT2 c2bOne) 0 :=
  ⟨fun b => by norm_num [c2bOne, Fin.sum_univ_one],
    C5_swap_identity (finT3 c5e) (finT2 c2bOne) (finT3 c5e) (finT2 c2bOne) c2bOne
      (fun b => by norm_num [c2bOne, Fin.sum_univ_one]) 0⟩

/-- Finite values are exactly those built by `fin`. -/
theorem NF.isFinite_iff (x : NF) : x.isFinite = true ↔ ∃ a : ℝ, x = NF.fin a := by
  cases x <;> simp [NF.isFinite]

theorem NF.mul_finite (x y : NF) (hx : x.isFinite = true) (hy : y.isFinite = true) :
    (NF.mul x y).isFinite = true := by
  obtain ⟨a, rfl⟩ := (NF.isFinite_iff x).mp hx
  obtain ⟨b, rfl⟩ := (NF.isFinite_iff y).mp hy
  rfl

theorem fsum_finite {n : ℕ} (f : Fin n → NF) (hf : ∀ i, (f i).isFinite = true) :
    (fsum f).isFinite = true := by
  have h2 : ∀ i, ∃ a : ℝ, f i = NF.fin a := fun i => (NF.isFinite_iff (f i)).mp (hf i)
  choose g hg using h2
  rw [show f = fun i => NF.fin (g i) from funext hg, fsum_fin]
  rfl

theorem div_fin_zero_not_finite (a : ℝ) :
    (NF.div (NF.fin a) (NF.fin 0)).isFinite = false := by
  rw [NF.div_fin_zero]
  split_ifs <;> rfl

/-- C8 (amended): after the per-row IDF normalization, only the recall side
replaces NaN with `1e-8`.  Consequences: (i) when a reference IDF row is
all-zero, every recall-side normalized weight is `0/0 = NaN` and is replaced
by `1e-8`, so (with finite word_recall values) `R[b]` is finite; (ii) when a
hypothesis IDF row has finite entries summing to zero, the unguarded
precision-side weights are all non-finite (NaN or ±Inf) and `P[b]` is
non-finite.  (The original claim's stronger statement — that ANY ref row
summing to 0 yields a finite weighted recall sum — fails when the zero-sum
row has nonzero entries: the weights are then ±Inf, not NaN, and are NOT
replaced; see the counterexample.) -/
theorem C8_nan_replacement_asymmetry {B Lr Lh H : ℕ}
    (re : Fin B → Fin Lr → Fin H → ℝ) (rm : Fin B → Fin Lr → ℝ)
    (he : Fin B → Fin Lh → Fin H → ℝ) (hm : Fin B → Fin Lh → ℝ)
    (ri : Fin B → Fin Lr → ℝ) (hi : Fin B → Fin Lh → ℝ) (b : Fin B)
    (hLh : 0 < Lh)
    (hre : ∀ b k, (∑ y, re b k y * re b k y) ≠ 0)
    (hhe : ∀ b j, (∑ y, he b j y * he b j y) ≠ 0)
    (hrm : ∀ b k, rm b k = 0 ∨ rm b k = 1)
    (hhm : ∀ b j, hm b j = 0 ∨ hm b j = 1)
    (hriz : ∀ k, ri b k = 0)
    (hhisum : (∑ j, hi b j) = 0) :
    (∀ k, greedy.recall_scale (finT2 ri) b k = NF.fin (1 / 100000000)) ∧
    (greedy.R (finT3 re) (finT2 rm) (finT2 ri) (finT3 he) (finT2 hm) b).isFinite =
      true ∧
    (∀ j, (greedy.precision_scale (finT2 hi) b j).isFinite = false) ∧
    (greedy.P (finT3 re) (finT2 rm) (finT3 he) (finT2 hm) (finT2 hi) b).isFinite =
      false := by
  have hrisum : (∑ k, ri b k) = 0 := Finset.sum_eq_zero (fun k _ => hriz k)
  have hscale : ∀ k, greedy.recall_scale (finT2 ri) b k = NF.fin (1 / 100000000) := by
    intro k
    unfold greedy.recall_scale greedy.recall_scale_raw finT2
    rw [fsum_fin, hrisum, hriz k, NF.div_def, NF.div_fin_zero, if_pos rfl]
    simp
  have hpscale : ∀ j, (greedy.precision_scale (finT2 hi) b j).isFinite = false := by
    intro j
    unfold greedy.precision_scale finT2
    rw [fsum_fin, hhisum, NF.div_def]
    exact div_fin_zero_not_finite _
  refine ⟨hscale, ?_, hpscale, ?_⟩
  · unfold greedy.R
    refine fsum_finite _ ?_
    intro k
    rw [NF.mul_def]
    refine NF.mul_finite _ _ ?_ (by rw [hscale k]; rfl)
    unfold greedy.word_recall
    refine fmax_finite _ hLh ?_
    intro j
    rw [masked_sim_if re rm he hm hre hhe hrm hhm b j k]
    split_ifs
    · rw [sim_fin re he hre hhe b j k]
      rfl
    · rfl
  · unfold greedy.P
    refine fsum_not_finite _ hLh ?_
    intro j
    rw [NF.mul_def]
    exact NF.mul_not_finite _ _ (hpscale j)

/-- Counterexample data for C8: all-ones `1×2×1` reference embeddings. -/
noncomputable def c8re : Fin 1 → Fin 2 → Fin 1 → ℝ := fun _ _ _ => 1

/-- Counterexample data for C8: all-ones `1×2` reference mask. -/
noncomputable def c8ones2 : Fin 1 → Fin 2 → ℝ := fun _ _ => 1

/-- Counterexample data for C8: reference IDF row `[1, -1]`, which sums to 0
with nonzero entries. -/
noncomputable def c8ri : Fin 1 → Fin 2 → ℝ := fun _ => ![1, -1]

theorem c8_norm_re : ∀ (b : Fin 1) (k : Fin 2), (∑ y, c8re b k y * c8re b k y) ≠ 0 := by
  intro b k
  norm_num [c8re, Fin.sum_univ_one]

/-- C8 counterexample: a reference IDF row summing to zero with nonzero
entries gives normalized weights `±Inf`; `isnan` does not flag them, so no
`1e-8` replacement happens, and the weighted recall sum is
`+Inf + (-Inf) = NaN` — not finite, refuting the claim's "a ref IDF row
summing to 0 still yields a finite weighted recall sum". -/
theorem C8_counterexample :
    (∑ k, c8ri 0 k) = 0 ∧
    greedy.R (finT3 c8re) (finT2 c8ones2) (finT2 c8ri) (finT3 c5e) (finT2 c2bOne) 0 =
      NF.nan ∧
    NF.nan.isFinite = false := by
  have hsum : (∑ k, c8ri 0 k) = 0 := by
    norm_num [c8ri, Fin.sum_univ_two]
  have hwr : ∀ k : Fin 2,
      greedy.word_recall (finT3 c8re) (finT2 c8ones2) (finT3 c5e) (finT2 c2bOne) 0 k =
        NF.fin 1 := by
    intro k
    unfold greedy.word_recall
    rw [fmax_one]
    rw [masked_sim_if c8re c8ones2 c5e c2bOne c8_norm_re c5_norm
      (fun b k2 => Or.inr rfl) (fun b j2 => Or.inr rfl) 0 0 k]
    rw [if_pos ⟨rfl, rfl⟩, sim_fin c8re c5e c8_norm_re c5_norm 0 0 k]
    congr 1
    norm_num [c8re, c5e, Fin.sum_univ_one]
  have hraw : ∀ k : Fin 2, greedy.recall_scale_raw (finT2 c8ri) 0 k =
      NF.div (NF.fin (c8ri 0 k)) (NF.fin 0) := by
    intro k
    unfold greedy.recall_scale_raw finT2
    rw [fsum_fin, hsum, NF.div_def]
  have hdiv0 : NF.div (NF.fin (1 : ℝ)) (NF.fin 0) = NF.pinf := by
    rw [NF.div_fin_zero]
    rw [if_neg (show ¬((1 : ℝ) = 0) by norm_num)]
    rw [if_pos (show (0 : ℝ) < 1 by norm_num)]
  have hdiv1 : NF.div (NF.fin (-1 : ℝ)) (NF.fin 0) = NF.ninf := by
    rw [NF.div_fin_zero]
    rw [if_neg (show ¬((-1 : ℝ) = 0) by norm_num)]
    rw [if_neg (show ¬((0 : ℝ) < -1) by norm_num)]
  have hscale0 : greedy.recall_scale (finT2 c8ri) 0 0 = NF.pinf := by
    unfold greedy.recall_scale
    rw [hraw 0, show c8ri 0 0 = (1 : ℝ) from by norm_num [c8ri], hdiv0]
    rfl
  have hscale1 : greedy.recall_scale (finT2 c8ri) 0 1 = NF.ninf := by
    unfold greedy.recall_scale
    rw [hraw 1, show c8ri 0 1 = (-1 : ℝ) from by norm_num [c8ri], hdiv1]
    rfl
  refine ⟨hsum, ?_, rfl⟩
  unfold greedy.R
  rw [fsum_two, hwr 0, hwr 1, hscale0, hscale1]
  simp only [NF.mul_def, NF.add_def]
  rw [show NF.mul (NF.fin 1) NF.pinf = NF.pinf from by norm_num [NF.mul]]
  rw [show NF.mul (NF.fin 1) NF.ninf = NF.ninf from by norm_num [NF.mul]]
  rfl

theorem C8_asymmetry_witness :
    (0 : ℕ) < 1 ∧ (∀ k : Fin 1, c5z 0 k = 0) ∧ (∑ j : Fin 1, c5z 0 j) = 0 ∧
    greedy.recall_scale (finT2 c5z) (0 : Fin 1) (0 : Fin 1) = NF.fin (1 / 100000000) ∧
    (greedy.R (finT3 c5e) (finT2 c2bOne) (finT2 c5z) (finT3 c5e) (finT2 c2bOne)
      0).isFinite = true ∧
    (greedy.P (finT3 c5e) (finT2 c2bOne) (finT3 c5e) (finT2 c2bOne) (finT2 c5z)
      0).isFinite = false := by
  have h := C8_nan_replacement_asymmetry c5e c2bOne c5e c2bOne c5z c5z 0
    (by norm_num) c5_norm c5_norm (fun b k => Or.inr rfl) (fun b j => Or.inr rfl)
    (fun k => rfl) (by simp [c5z, Fin.sum_univ_one])
  exact ⟨by norm_num, fun k => rfl, by simp [c5z, Fin.sum_univ_one], h.1 0, h.2.1,
    h.2.2.2⟩

/-! ### C4: batch invariance of the orchestrator. -/

theorem getD_zipWith {α β γ : Type} (f : α → β → γ) (l1 : List α) (l2 : List β)
    (i : ℕ) (h1 : i < l1.length) (h2 : i < l2.length) (d : γ) (d1 : α) (d2 : β) :
    (List.zipWith f l1 l2).getD i d = f (l1.getD i d1) (l2.getD i d2) := by
  induction l1 generalizing l2 i with
  | nil => simp at h1
  | cons x xs ih =>
      cases l2 with
      | nil => simp at h2
      | cons y ys =>
          cases i with
          | zero => rfl
          | succ n =>
              simp only [List.zipWith_cons_cons, List.getD_cons_succ]
              exact ih ys n (by simpa using h1) (by simpa using h2)

theorem collate_ids_length (arr : List String) (tokenize : String → List String)
    (numericalize : List String → List ℤ) :
    (collate_ids arr tokenize numericalize).length = arr.length := by
  simp [collate_ids]

theorem collate_ids_mem_len (arr : List String) (tokenize : String → List String)
    (numericalize : List String → List ℤ) (ℓ : ℕ)
    (h : ∀ s ∈ arr, (numericalize ("[CLS]" :: tokenize s ++ ["[SEP]"])).length = ℓ) :
    ∀ a ∈ collate_ids arr tokenize numericalize, a.length = ℓ := by
  intro a ha
  unfold collate_ids at ha
  rw [List.map_map] at ha
  obtain ⟨s, hs, rfl⟩ := List.mem_map.mp ha
  exact h s hs

theorem maxLen_uniform {α : Type} (l : List (List α)) (ℓ : ℕ) (hne : l ≠ [])
    (h : ∀ a ∈ l, a.length = ℓ) : maxLen l = ℓ := by
  obtain ⟨a, ha, hlen⟩ := maxLen_mem l hne
  rw [hlen, h a ha]

theorem padding_uniform {α : Type} (l : List (List α)) (pad : α) (ℓ : ℕ)
    (h : ∀ a ∈ l, a.length = ℓ) : (padding l pad).1 = l := by
  rcases eq_or_ne l [] with rfl | hne
  · rfl
  · have hml : maxLen l = ℓ := maxLen_uniform l ℓ hne h
    unfold padding
    have : ∀ a ∈ l, a ++ List.replicate (maxLen l - a.length) pad = a := by
      intro a ha
      rw [hml, h a ha, Nat.sub_self, List.replicate_zero, List.append_nil]
    calc l.map (fun a => a ++ List.replicate (maxLen l - a.length) pad)
        = l.map id := List.map_congr_left (fun a ha => this a ha)
      _ = l := List.map_id l

theorem padding_mask_uniform {α : Type} (l : List (List α)) (pad : α) (ℓ : ℕ)
    (h : ∀ a ∈ l, a.length = ℓ) :
    (padding l pad).2.2 = l.map (fun a => List.replicate a.length 1) := by
  rcases eq_or_ne l [] with rfl | hne
  · rfl
  · have hml : maxLen l = ℓ := maxLen_uniform l ℓ hne h
    unfold padding
    refine List.map_congr_left ?_
    intro a ha
    rw [hml, h a ha, Nat.sub_self, List.replicate_zero, List.append_nil]

theorem collate_idf_uniform (arr : List String) (tokenize : String → List String)
    (numericalize : List String → List ℤ) (d : DDict) (pad : String) (ℓ : ℕ)
    (h : ∀ s ∈ arr, (numericalize ("[CLS]" :: tokenize s ++ ["[SEP]"])).length = ℓ) :
    (collate_idf arr tokenize numericalize d pad).1 =
      collate_ids arr tokenize numericalize ∧
    (collate_idf arr tokenize numericalize d pad).2.1 =
      (collate_ids arr tokenize numericalize).map (fun a => a.map d.val) ∧
    (collate_idf arr tokenize numericalize d pad).2.2.2.1 =
      (collate_ids arr tokenize numericalize).map
        (fun a => List.replicate a.length 1) := by
  have hids := collate_ids_mem_len arr tokenize numericalize ℓ h
  have hrows : (d.getRows (collate_ids arr tokenize numericalize)).1 =
      (collate_ids arr tokenize numericalize).map (fun a => a.map d.val) :=
    DDict.getRows_fst d _
  have hwlen : ∀ a ∈ (d.getRows (collate_ids arr tokenize numericalize)).1,
      a.length = ℓ := by
    rw [hrows]
    intro a ha
    obtain ⟨r, hr, rfl⟩ := List.mem_map.mp ha
    rw [List.length_map]
    exact hids r hr
  refine ⟨?_, ?_, ?_⟩
  · show (padding (collate_ids arr tokenize numericalize)
        ((numericalize [pad]).headD 0)).1 = _
    exact padding_uniform _ _ ℓ hids
  · show (padding (d.getRows (collate_ids arr tokenize numericalize)).1
        ((((numericalize [pad]).headD 0 : ℤ)) : ℝ)).1 = _
    rw [padding_uniform _ _ ℓ hwlen, hrows]
  · show (padding (collate_ids arr tokenize numericalize)
        ((numericalize [pad]).headD 0)).2.2 = _
    exact padding_mask_uniform _ _ ℓ hids

theorem pyRange_zero (step : ℕ) : pyRange 0 step = [] := by
  unfold pyRange
  cases step with
  | zero => rfl
  | succ s =>
      rw [Nat.div_eq_of_lt (by omega)]
      rfl

theorem pyRange_self (n : ℕ) (hn : 0 < n) : pyRange n n = [0] := by
  unfold pyRange
  have h1 : (n + n - 1) / n = 1 := by
    have h2 : n + n - 1 = (n - 1) + n := by omega
    rw [h2, Nat.add_div_right _ hn, Nat.div_eq_of_lt (by omega)]
  rw [h1]
  rfl

theorem get_bert_embedding_uniform (M : List ℤ → List ℤ → List ℕ → List (List ℝ))
    (arr : List String) (tokenize : String → List String)
    (numericalize : List String → List ℤ) (d : DDict) (ℓ : ℕ)
    (h : ∀ s ∈ arr, (numericalize ("[CLS]" :: tokenize s ++ ["[SEP]"])).length = ℓ) :
    (get_bert_embedding arr M tokenize numericalize d (-1)).1 =
      bert_encode M (collate_ids arr tokenize numericalize)
        ((collate_ids arr tokenize numericalize).map
          (fun a => List.replicate a.length 1)) ∧
    (get_bert_embedding arr M tokenize numericalize d (-1)).2.1 =
      (collate_ids arr tokenize numericalize).map List.length ∧
    (get_bert_embedding arr M tokenize numericalize d (-1)).2.2.1 =
      (collate_ids arr tokenize numericalize).map
        (fun a => List.replicate a.length 1) ∧
    (get_bert_embedding arr M tokenize numericalize d (-1)).2.2.2.1 =
      (collate_ids arr tokenize numericalize).map (fun a => a.map d.val) ∧
    (get_bert_embedding arr M tokenize numericalize d (-1)).2.2.2.2 =
      (d.getRows (collate_ids arr tokenize numericalize)).2 := by
  obtain ⟨h1, h2, h3⟩ := collate_idf_uniform arr tokenize numericalize d "[PAD]" ℓ h
  have hlens : (get_bert_embedding arr M tokenize numericalize d (-1)).2.1 =
      (collate_ids arr tokenize numericalize).map List.length := rfl
  have hmask : (get_bert_embedding arr M tokenize numericalize d (-1)).2.2.1 =
      (collate_idf arr tokenize numericalize d "[PAD]").2.2.2.1 := rfl
  have hidf : (get_bert_embedding arr M tokenize numericalize d (-1)).2.2.2.1 =
      (collate_idf arr tokenize numericalize d "[PAD]").2.1 := rfl
  have hstate : (get_bert_embedding arr M tokenize numericalize d (-1)).2.2.2.2 =
      (d.getRows (collate_ids arr tokenize numericalize)).2 := by
    show (collate_idf arr tokenize numericalize d "[PAD]").2.2.2.2 = _
    simp [collate_idf]
  refine ⟨?_, hlens, hmask.trans h3, hidf.trans h2, hstate⟩
  have hproj : (get_bert_embedding arr M tokenize numericalize d (-1)).1 =
      ((pyRange arr.length
          (if (-1 : ℤ) = -1 then arr.length else (-1 : ℤ).toNat)).map (fun i =>
        bert_encode M
          (((collate_idf arr tokenize numericalize d "[PAD]").1.drop i).take
            (if (-1 : ℤ) = -1 then arr.length else (-1 : ℤ).toNat))
          (((collate_idf arr tokenize numericalize d "[PAD]").2.2.2.1.drop i).take
            (if (-1 : ℤ) = -1 then arr.length else (-1 : ℤ).toNat)))).flatten := rfl
  rw [hproj, if_pos (rfl : (-1 : ℤ) = -1)]
  rcases eq_or_ne arr [] with rfl | hne
  · rfl
  · have hn : 0 < arr.length := List.length_pos.mpr hne
    rw [pyRange_self _ hn]
    have hlen1 : (collate_idf arr tokenize numericalize d "[PAD]").1.length =
        arr.length := by
      rw [h1, collate_ids_length]
    have hlen3 : (collate_idf arr tokenize numericalize d "[PAD]").2.2.2.1.length =
        arr.length := by
      rw [h3, List.length_map, collate_ids_length]
    simp only [List.map_cons, List.map_nil, List.flatten_cons, List.flatten_nil,
      List.append_nil, List.drop_zero]
    rw [List.take_of_length_le (le_of_eq hlen1), List.take_of_length_le (le_of_eq hlen3),
      h1, h3]

/-- The score the pipeline produces for one ref/hyp pair when its chunk needs
no padding: the pair's token ids, an all-ones mask, the model's embeddings of
exactly those ids, and IDF weights `dval` of each id.  `Lr`/`Lh` are the
sequence dimensions of the enclosing batch (equal to the rows' own lengths
in the uniform-length setting). -/
noncomputable def rowScore (M : List ℤ → List ℤ → List ℕ → List (List ℝ))
    (Hdim Lr Lh : ℕ) (tokenize : String → List String)
    (numericalize : List String → List ℤ) (dval : ℤ → ℝ) (r h : String) :
    NF × NF × NF :=
  let rids := numericalize ("[CLS]" :: tokenize r ++ ["[SEP]"])
  let hids := numericalize ("[CLS]" :: tokenize h ++ ["[SEP]"])
  let rembL := M rids (rids.map (fun _ => 0)) (List.replicate rids.length 1)
  let hembL := M hids (hids.map (fun _ => 0)) (List.replicate hids.length 1)
  let reT : Fin 1 → Fin Lr → Fin Hdim → NF :=
    fun _ k x => NF.fin ((rembL.getD k []).getD x 0)
  let rmT : Fin 1 → Fin Lr → NF := fun _ _ => NF.fin 1
  let riT : Fin 1 → Fin Lr → NF := fun _ k => NF.fin (dval (rids.getD k 0))
  let heT : Fin 1 → Fin Lh → Fin Hdim → NF :=
    fun _ j x => NF.fin ((hembL.getD j []).getD x 0)
  let hmT : Fin 1 → Fin Lh → NF := fun _ _ => NF.fin 1
  let hiT : Fin 1 → Fin Lh → NF := fun _ j => NF.fin (dval (hids.getD j 0))
  let out := greedy_cos_idf reT (fun _ => rids.length) rmT riT
    heT (fun _ => hids.length) hmT hiT
  (out.1 0, out.2.1 0, out.2.2 0)

theorem P_row {B Lr Lh H : ℕ} (re : Fin B → Fin Lr → Fin H → NF)
    (rm : Fin B → Fin Lr → NF) (he : Fin B → Fin Lh → Fin H → NF)
    (hm : Fin B → Fin Lh → NF) (hi : Fin B → Fin Lh → NF) (b : Fin B) :
    greedy.P re rm he hm hi b =
      greedy.P (fun _ : Fin 1 => re b) (fun _ => rm b) (fun _ => he b)
        (fun _ => hm b) (fun _ => hi b) 0 := rfl

theorem R_row {B Lr Lh H : ℕ} (re : Fin B → Fin Lr → Fin H → NF)
    (rm : Fin B → Fin Lr → NF) (ri : Fin B → Fin Lr → NF)
    (he : Fin B → Fin Lh → Fin H → NF) (hm : Fin B → Fin Lh → NF) (b : Fin B) :
    greedy.R re rm ri he hm b =
      greedy.R (fun _ : Fin 1 => re b) (fun _ => rm b) (fun _ => ri b)
        (fun _ => he b) (fun _ => hm b) 0 := rfl

theorem F_row {B Lr Lh H : ℕ} (re : Fin B → Fin Lr → Fin H → NF)
    (rm : Fin B → Fin Lr → NF) (ri : Fin B → Fin Lr → NF)
    (he : Fin B → Fin Lh → Fin H → NF) (hm : Fin B → Fin Lh → NF)
    (hi : Fin B → Fin Lh → NF) (b : Fin B) :
    greedy.F re rm ri he hm hi b =
      greedy.F (fun _ : Fin 1 => re b) (fun _ => rm b) (fun _ => ri b)
        (fun _ => he b) (fun _ => hm b) (fun _ => hi b) 0 := rfl

theorem collate_ids_getD (arr : List String) (tokenize : String → List String)
    (numericalize : List String → List ℤ) (b : ℕ) (hb : b < arr.length) :
    (collate_ids arr tokenize numericalize).getD b [] =
      numericalize ("[CLS]" :: tokenize (arr.getD b "") ++ ["[SEP]"]) := by
  unfold collate_ids
  rw [getD_map _ _ b (by simpa using hb) [] ("[CLS]" :: tokenize (arr.getD b "") ++ ["[SEP]"])]
  rw [getD_map _ _ b hb ("[CLS]" :: tokenize (arr.getD b "") ++ ["[SEP]"]) ""]

theorem map_zip_eq_ofFn {α β γ : Type} (l1 : List α) (l2 : List β) (f : α × β → γ)
    (hlen : l1.length = l2.length) (d1 : α) (d2 : β) :
    (l1.zip l2).map f =
      List.ofFn (fun i : Fin l1.length => f (l1.getD i d1, l2.getD i d2)) := by
  induction l1 generalizing l2 with
  | nil => cases l2 <;> rfl
  | cons x xs ih =>
      cases l2 with
      | nil => simp at hlen
      | cons y ys =>
          rw [List.zip_cons_cons, List.map_cons, List.ofFn_succ]
          congr 1
          rw [ih ys (by simpa using hlen)]
          refine congrArg List.ofFn (funext fun i => ?_)
          simp [Fin.val_succ, List.getD_cons_succ]

theorem greedy_cos_idf_row {B Lr Lh H : ℕ} (re : Fin B → Fin Lr → Fin H → NF)
    (rlens : Fin B → ℕ) (rm : Fin B → Fin Lr → NF) (ri : Fin B → Fin Lr → NF)
    (he : Fin B → Fin Lh → Fin H → NF) (hlens : Fin B → ℕ)
    (hm : Fin B → Fin Lh → NF) (hi : Fin B → Fin Lh → NF) (b : Fin B) :
    ((greedy_cos_idf re rlens rm ri he hlens hm hi).1 b,
      (greedy_cos_idf re rlens rm ri he hlens hm hi).2.1 b,
      (greedy_cos_idf re rlens rm ri he hlens hm hi).2.2 b) =
      ((greedy_cos_idf (fun _ : Fin 1 => re b) (fun _ => rlens b) (fun _ => rm b)
          (fun _ => ri b) (fun _ => he b) (fun _ => hlens b) (fun _ => hm b)
          (fun _ => hi b)).1 0,
        (greedy_cos_idf (fun _ : Fin 1 => re b) (fun _ => rlens b) (fun _ => rm b)
          (fun _ => ri b) (fun _ => he b) (fun _ => hlens b) (fun _ => hm b)
          (fun _ => hi b)).2.1 0,
        (greedy_cos_idf (fun _ : Fin 1 => re b) (fun _ => rlens b) (fun _ => rm b)
          (fun _ => ri b) (fun _ => he b) (fun _ => hlens b) (fun _ => hm b)
          (fun _ => hi b)).2.2 0) := rfl

/-- `greedy_cos_idf` ignores its `lens` arguments, so its output only depends
on the six tensors. -/
theorem greedy_cos_idf_congr {B Lr Lh H : ℕ}
    {re1 re2 : Fin B → Fin Lr → Fin H → NF} {rm1 rm2 ri1 ri2 : Fin B → Fin Lr → NF}
    {he1 he2 : Fin B → Fin Lh → Fin H → NF} {hm1 hm2 hi1 hi2 : Fin B → Fin Lh → NF}
    (rl1 rl2 hl1 hl2 : Fin B → ℕ)
    (hre : re1 = re2) (hrm : rm1 = rm2) (hri : ri1 = ri2)
    (hhe : he1 = he2) (hhm : hm1 = hm2) (hhi : hi1 = hi2) :
    greedy_cos_idf re1 rl1 rm1 ri1 he1 hl1 hm1 hi1 =
      greedy_cos_idf re2 rl2 rm2 ri2 he2 hl2 hm2 hi2 := by
  subst hre hrm hri hhe hhm hhi
  rfl

theorem get_bert_embedding_state_val (arr : List String)
    (M : List ℤ → List ℤ → List ℕ → List (List ℝ))
    (tokenize : String → List String) (numericalize : List String → List ℤ)
    (d : DDict) (bs : ℤ) (k : ℤ) :
    ((get_bert_embedding arr M tokenize numericalize d bs).2.2.2.2).val k = d.val k := by
  show ((collate_idf arr tokenize numericalize d "[PAD]").2.2.2.2).val k = d.val k
  have hcol : (collate_idf arr tokenize numericalize d "[PAD]").2.2.2.2 =
      (d.getRows (collate_ids arr tokenize numericalize)).2 := by
    simp [collate_idf]
  rw [hcol]
  exact DDict.getRows_val d _ k

theorem scoreChunk_rows (M : List ℤ → List ℤ → List ℕ → List (List ℝ)) (Hdim : ℕ)
    (chr chh : List String) (tokenize : String → List String)
    (numericalize : List String → List ℤ) (d : DDict) (ℓr ℓh : ℕ)
    (hlen : chr.length = chh.length)
    (hr : ∀ s ∈ chr, (numericalize ("[CLS]" :: tokenize s ++ ["[SEP]"])).length = ℓr)
    (hh : ∀ s ∈ chh, (numericalize ("[CLS]" :: tokenize s ++ ["[SEP]"])).length = ℓh) :
    (scoreChunk M Hdim chr chh tokenize numericalize d).1 =
      (chr.zip chh).map (fun pr =>
        rowScore M Hdim ℓr ℓh tokenize numericalize d.val pr.1 pr.2) ∧
    ((scoreChunk M Hdim chr chh tokenize numericalize d).2).val = d.val := by
  have hstate : ((scoreChunk M Hdim chr chh tokenize numericalize d).2).val = d.val := by
    funext k
    show ((get_bert_embedding chh M tokenize numericalize
      (get_bert_embedding chr M tokenize numericalize d (-1)).2.2.2.2 (-1)).2.2.2.2).val k =
        d.val k
    rw [get_bert_embedding_state_val, get_bert_embedding_state_val]
  refine ⟨?_, hstate⟩
  rcases eq_or_ne chr [] with rfl | hne
  · have hlen0 : (scoreChunk M Hdim [] chh tokenize numericalize d).1.length = 0 := by
      simp only [scoreChunk]
      rw [List.length_ofFn]
      rfl
    simp only [List.zip_nil_left, List.map_nil]
    exact List.eq_nil_of_length_eq_zero hlen0
  · have hchh_ne : chh ≠ [] := by
      intro hc
      apply hne
      rw [hc] at hlen
      exact List.eq_nil_of_length_eq_zero hlen
    have hidsR_len : (collate_ids chr tokenize numericalize).length = chr.length :=
      collate_ids_length chr tokenize numericalize
    have hidsH_len : (collate_ids chh tokenize numericalize).length = chh.length :=
      collate_ids_length chh tokenize numericalize
    have hidsR_ne : collate_ids chr tokenize numericalize ≠ [] := by
      refine List.ne_nil_of_length_pos ?_
      rw [hidsR_len]
      exact List.length_pos.mpr hne
    have hidsH_ne : collate_ids chh tokenize numericalize ≠ [] := by
      refine List.ne_nil_of_length_pos ?_
      rw [hidsH_len]
      exact List.length_pos.mpr hchh_ne
    obtain ⟨e1r, e2r, e3r, e4r, e5r⟩ :=
      get_bert_embedding_uniform M chr tokenize numericalize d ℓr hr
    obtain ⟨e1h, e2h, e3h, e4h, e5h⟩ :=
      get_bert_embedding_uniform M chh tokenize numericalize
        ((get_bert_embedding chr M tokenize numericalize d (-1)).2.2.2.2) ℓh hh
    have hLr : ((get_bert_embedding chr M tokenize numericalize d (-1)).2.2.1.headD
        []).length = ℓr := by
      rw [e3r]
      cases hids : collate_ids chr tokenize numericalize with
      | nil => exact absurd hids hidsR_ne
      | cons a t =>
          simp only [List.map_cons, List.headD_cons, List.length_replicate]
          exact collate_ids_mem_len chr tokenize numericalize ℓr hr a
            (by rw [hids]; exact List.mem_cons_self a t)
    have hLh : ((get_bert_embedding chh M tokenize numericalize
        ((get_bert_embedding chr M tokenize numericalize d (-1)).2.2.2.2)
          (-1)).2.2.1.headD []).length = ℓh := by
      rw [e3h]
      cases hids : collate_ids chh tokenize numericalize with
      | nil => exact absurd hids hidsH_ne
      | cons a t =>
          simp only [List.map_cons, List.headD_cons, List.length_replicate]
          exact collate_ids_mem_len chh tokenize numericalize ℓh hh a
            (by rw [hids]; exact List.mem_cons_self a t)
    subst hLr
    subst hLh
    rw [map_zip_eq_ofFn chr chh _ hlen "" ""]
    simp only [scoreChunk]
    refine congrArg List.ofFn (funext fun b => ?_)
    have hbr : (b : ℕ) < chr.length := b.isLt
    have hbh : (b : ℕ) < chh.length := hlen ▸ b.isLt
    have hmemr : chr.getD (b : ℕ) "" ∈ chr := by
      rw [List.getD_eq_getElem chr "" hbr]
      exact List.getElem_mem hbr
    have hmemh : chh.getD (b : ℕ) "" ∈ chh := by
      rw [List.getD_eq_getElem chh "" hbh]
      exact List.getElem_mem hbh
    have hidsb_r : (collate_ids chr tokenize numericalize).getD (b : ℕ) [] =
        numericalize ("[CLS]" :: tokenize (chr.getD (b : ℕ) "") ++ ["[SEP]"]) :=
      collate_ids_getD chr tokenize numericalize (b : ℕ) hbr
    have hidsb_h : (collate_ids chh tokenize numericalize).getD (b : ℕ) [] =
        numericalize ("[CLS]" :: tokenize (chh.getD (b : ℕ) "") ++ ["[SEP]"]) :=
      collate_ids_getD chh tokenize numericalize (b : ℕ) hbh
    set Lrc := ((get_bert_embedding chr M tokenize numericalize d (-1)).2.2.1.headD
      []).length with hLrcDef
    set Lhc := ((get_bert_embedding chh M tokenize numericalize
      (get_bert_embedding chr M tokenize numericalize d (-1)).2.2.2.2
        (-1)).2.2.1.headD []).length with hLhcDef
    set ridsR := numericalize ("[CLS]" :: tokenize (chr.getD (↑b) "") ++ ["[SEP]"])
      with hridsRdef
    set ridsH := numericalize ("[CLS]" :: tokenize (chh.getD (↑b) "") ++ ["[SEP]"])
      with hridsHdef
    have hplr : ridsR.length = Lrc := hr _ hmemr
    have hplh : ridsH.length = Lhc := hh _ hmemh
    have hbr2 : (↑b : ℕ) < (collate_ids chr tokenize numericalize).length := by
      rw [hidsR_len]
      exact hbr
    have hbh2 : (↑b : ℕ) < (collate_ids chh tokenize numericalize).length := by
      rw [hidsH_len]
      exact hbh
    have hrowe_r : (get_bert_embedding chr M tokenize numericalize d (-1)).1.getD (↑b) [] =
        M ridsR (ridsR.map fun _ => 0) (List.replicate ridsR.length 1) := by
      rw [e1r]
      unfold bert_encode
      rw [getD_zipWith _ _ _ (↑b) hbr2 (by rw [List.length_map]; exact hbr2) [] [] []]
      rw [getD_map _ _ (↑b) hbr2 [] []]
      rw [hidsb_r]
    have hrowe_h : (get_bert_embedding chh M tokenize numericalize
        (get_bert_embedding chr M tokenize numericalize d (-1)).2.2.2.2 (-1)).1.getD
          (↑b) [] =
        M ridsH (ridsH.map fun _ => 0) (List.replicate ridsH.length 1) := by
      rw [e1h]
      unfold bert_encode
      rw [getD_zipWith _ _ _ (↑b) hbh2 (by rw [List.length_map]; exact hbh2) [] [] []]
      rw [getD_map _ _ (↑b) hbh2 [] []]
      rw [hidsb_h]
    have hrowm_r : ((get_bert_embedding chr M tokenize numericalize d (-1)).2.2.1).getD
        (↑b) [] = List.replicate ridsR.length 1 := by
      rw [e3r]
      rw [getD_map _ _ (↑b) hbr2 [] []]
      rw [hidsb_r]
    have hrowm_h : ((get_bert_embedding chh M tokenize numericalize
        (get_bert_embedding chr M tokenize numericalize d (-1)).2.2.2.2
          (-1)).2.2.1).getD (↑b) [] = List.replicate ridsH.length 1 := by
      rw [e3h]
      rw [getD_map _ _ (↑b) hbh2 [] []]
      rw [hidsb_h]
    have hrowi_r : ((get_bert_embedding chr M tokenize numericalize d (-1)).2.2.2.1).getD
        (↑b) [] = ridsR.map d.val := by
      rw [e4r]
      rw [getD_map _ _ (↑b) hbr2 [] []]
      rw [hidsb_r]
    have hrowi_h : ((get_bert_embedding chh M tokenize numericalize
        (get_bert_embedding chr M tokenize numericalize d (-1)).2.2.2.2
          (-1)).2.2.2.1).getD (↑b) [] =
        ridsH.map ((get_bert_embedding chr M tokenize numericalize d (-1)).2.2.2.2).val := by
      rw [e4h]
      rw [getD_map _ _ (↑b) hbh2 [] []]
      rw [hidsb_h]
    have hEre : (fun (_ : Fin 1) (k : Fin Lrc) (x : Fin Hdim) =>
        NF.fin (at3 (get_bert_embedding chr M tokenize numericalize d (-1)).1
          (↑b) (↑k) (↑x))) =
        (fun (_ : Fin 1) (k : Fin Lrc) (x : Fin Hdim) =>
          NF.fin (((M ridsR (ridsR.map fun _ => 0)
            (List.replicate ridsR.length 1)).getD (↑k) []).getD (↑x) 0)) := by
      funext u k x
      unfold at3
      rw [hrowe_r]
    have hEhe : (fun (_ : Fin 1) (j : Fin Lhc) (x : Fin Hdim) =>
        NF.fin (at3 (get_bert_embedding chh M tokenize numericalize
          (get_bert_embedding chr M tokenize numericalize d (-1)).2.2.2.2 (-1)).1
          (↑b) (↑j) (↑x))) =
        (fun (_ : Fin 1) (j : Fin Lhc) (x : Fin Hdim) =>
          NF.fin (((M ridsH (ridsH.map fun _ => 0)
            (List.replicate ridsH.length 1)).getD (↑j) []).getD (↑x) 0)) := by
      funext u j x
      unfold at3
      rw [hrowe_h]
    have hErm : (fun (_ : Fin 1) (k : Fin Lrc) =>
        NF.fin ((at2N (get_bert_embedding chr M tokenize numericalize d (-1)).2.2.1
          (↑b) (↑k) : ℕ) : ℝ)) =
        (fun (_ : Fin 1) (_ : Fin Lrc) => NF.fin 1) := by
      funext u k
      unfold at2N
      rw [hrowm_r, getD_replicate _ _ _ _ (by rw [hplr]; exact k.isLt)]
      norm_num
    have hEhm : (fun (_ : Fin 1) (j : Fin Lhc) =>
        NF.fin ((at2N (get_bert_embedding chh M tokenize numericalize
          (get_bert_embedding chr M tokenize numericalize d (-1)).2.2.2.2
            (-1)).2.2.1 (↑b) (↑j) : ℕ) : ℝ)) =
        (fun (_ : Fin 1) (_ : Fin Lhc) => NF.fin 1) := by
      funext u j
      unfold at2N
      rw [hrowm_h, getD_replicate _ _ _ _ (by rw [hplh]; exact j.isLt)]
      norm_num
    have hEri : (fun (_ : Fin 1) (k : Fin Lrc) =>
        NF.fin (at2R (get_bert_embedding chr M tokenize numericalize d (-1)).2.2.2.1
          (↑b) (↑k))) =
        (fun (_ : Fin 1) (k : Fin Lrc) => NF.fin (d.val (ridsR.getD (↑k) 0))) := by
      funext u k
      unfold at2R
      rw [hrowi_r, getD_map _ _ (↑k) (by rw [hplr]; exact k.isLt) 0 0]
    have hEhi : (fun (_ : Fin 1) (j : Fin Lhc) =>
        NF.fin (at2R (get_bert_embedding chh M tokenize numericalize
          (get_bert_embedding chr M tokenize numericalize d (-1)).2.2.2.2
            (-1)).2.2.2.1 (↑b) (↑j))) =
        (fun (_ : Fin 1) (j : Fin Lhc) => NF.fin (d.val (ridsH.getD (↑j) 0))) := by
      funext u j
      unfold at2R
      rw [hrowi_h, getD_map _ _ (↑j) (by rw [hplh]; exact j.isLt) 0 0]
      rw [get_bert_embedding_state_val]
    rw [greedy_cos_idf_row]
    simp only [rowScore]
    refine congrArg₂ Prod.mk ?_ (congrArg₂ Prod.mk ?_ ?_)
    · exact congrArg (fun p => p.1 0)
        (greedy_cos_idf_congr _ _ _ _ hEre hErm hEri hEhe hEhm hEhi)
    · exact congrArg (fun p => p.2.1 0)
        (greedy_cos_idf_congr _ _ _ _ hEre hErm hEri hEhe hEhm hEhi)
    · exact congrArg (fun p => p.2.2 0)
        (greedy_cos_idf_congr _ _ _ _ hEre hErm hEri hEhe hEhm hEhi)

theorem foldl_acc_out {γ σ : Type} (A : ℕ → σ → List γ) (S : ℕ → σ → σ) :
    ∀ (l : List ℕ) (x : List γ) (s : σ),
      l.foldl (fun acc i => (acc.1 ++ A i acc.2, S i acc.2)) (x, s) =
        (x ++ (l.foldl (fun acc i => (acc.1 ++ A i acc.2, S i acc.2)) ([], s)).1,
          (l.foldl (fun acc i => (acc.1 ++ A i acc.2, S i acc.2)) ([], s)).2) := by
  intro l
  induction l with
  | nil =>
      intro x s
      simp
  | cons a t ih =>
      intro x s
      rw [List.foldl_cons, List.foldl_cons]
      rw [ih (x ++ A a s) (S a s), ih ([] ++ A a s) (S a s)]
      simp [List.append_assoc]

theorem foldl_shift {γ σ : Type} (A : ℕ → σ → List γ) (S : ℕ → σ → σ) (bs : ℕ) :
    ∀ (c a : ℕ) (x : List γ) (s : σ),
      (List.range' (a + bs) c bs).foldl
          (fun acc i => (acc.1 ++ A i acc.2, S i acc.2)) (x, s) =
        (List.range' a c bs).foldl
          (fun acc i => (acc.1 ++ A (i + bs) acc.2, S (i + bs) acc.2)) (x, s) := by
  intro c
  induction c with
  | zero =>
      intro a x s
      rfl
  | succ m ih =>
      intro a x s
      rw [List.range'_succ, List.range'_succ, List.foldl_cons, List.foldl_cons]
      exact ih (a + bs) _ _

theorem bert_cos_score_peel (M : List ℤ → List ℤ → List ℕ → List (List ℝ))
    (Hdim : ℕ) (refs hyps : List String) (tokenize : String → List String)
    (numericalize : List String → List ℤ) (d : DDict) (bs : ℕ)
    (hbs : 0 < bs) (hne : refs ≠ []) :
    bert_cos_score_idf M Hdim refs hyps tokenize numericalize d bs =
      (scoreChunk M Hdim (refs.take bs) (hyps.take bs) tokenize numericalize d).1 ++
        bert_cos_score_idf M Hdim (refs.drop bs) (hyps.drop bs) tokenize numericalize
          ((scoreChunk M Hdim (refs.take bs) (hyps.take bs) tokenize
            numericalize d).2) bs := by
  have hN : 0 < refs.length := List.length_pos.mpr hne
  have hcount : (refs.length + bs - 1) / bs =
      ((refs.drop bs).length + bs - 1) / bs + 1 := by
    rw [List.length_drop]
    rcases Nat.le_total bs refs.length with hle | hle
    · have h1 : refs.length + bs - 1 = (refs.length - bs + bs - 1) + bs := by omega
      rw [h1, Nat.add_div_right _ hbs]
    · have h0 : refs.length - bs = 0 := by omega
      have h2 : refs.length + bs - 1 = (refs.length - 1) + bs := by omega
      rw [h0, h2, Nat.add_div_right _ hbs]
      have e1 : refs.length - 1 < bs := by omega
      have e2 : 0 + bs - 1 < bs := by omega
      rw [Nat.div_eq_of_lt e1, Nat.div_eq_of_lt e2]
  have hdropsR : ∀ i : ℕ, (refs.drop bs).drop i = refs.drop (i + bs) := by
    intro i
    rw [List.drop_drop, Nat.add_comm]
  have hdropsH : ∀ i : ℕ, (hyps.drop bs).drop i = hyps.drop (i + bs) := by
    intro i
    rw [List.drop_drop, Nat.add_comm]
  show ((pyRange refs.length bs).foldl
      (fun acc batch_start =>
        (acc.1 ++ (scoreChunk M Hdim ((refs.drop batch_start).take bs)
            ((hyps.drop batch_start).take bs) tokenize numericalize acc.2).1,
          (scoreChunk M Hdim ((refs.drop batch_start).take bs)
            ((hyps.drop batch_start).take bs) tokenize numericalize acc.2).2))
      (([] : List (NF × NF × NF)), d)).1 = _
  have hrange : pyRange refs.length bs =
      List.range' 0 (((refs.drop bs).length + bs - 1) / bs + 1) bs := by
    rw [pyRange, hcount]
  rw [hrange, List.range'_succ, List.foldl_cons]
  simp only [List.drop_zero, List.nil_append]
  have hshift := foldl_shift
    (fun i s => (scoreChunk M Hdim ((refs.drop i).take bs)
      ((hyps.drop i).take bs) tokenize numericalize s).1)
    (fun i s => (scoreChunk M Hdim ((refs.drop i).take bs)
      ((hyps.drop i).take bs) tokenize numericalize s).2) bs
    (((refs.drop bs).length + bs - 1) / bs) 0
    (scoreChunk M Hdim (refs.take bs) (hyps.take bs) tokenize numericalize d).1
    (scoreChunk M Hdim (refs.take bs) (hyps.take bs) tokenize numericalize d).2
  simp only [] at hshift
  rw [hshift]
  have hacc := foldl_acc_out
    (fun i s => (scoreChunk M Hdim (((refs.drop bs).drop i).take bs)
      (((hyps.drop bs).drop i).take bs) tokenize numericalize s).1)
    (fun i s => (scoreChunk M Hdim (((refs.drop bs).drop i).take bs)
      (((hyps.drop bs).drop i).take bs) tokenize numericalize s).2)
    (List.range' 0 (((refs.drop bs).length + bs - 1) / bs) bs)
    (scoreChunk M Hdim (refs.take bs) (hyps.take bs) tokenize numericalize d).1
    (scoreChunk M Hdim (refs.take bs) (hyps.take bs) tokenize numericalize d).2
  simp only [hdropsR, hdropsH] at hacc
  rw [hacc]
  simp only [← hdropsR, ← hdropsH]
  rfl

theorem bert_cos_score_nil (M : List ℤ → List ℤ → List ℕ → List (List ℝ))
    (Hdim : ℕ) (hyps : List String) (tokenize : String → List String)
    (numericalize : List String → List ℤ) (d : DDict) (bs : ℕ) :
    bert_cos_score_idf M Hdim [] hyps tokenize numericalize d bs = [] := by
  unfold bert_cos_score_idf
  rw [List.length_nil, pyRange_zero]
  rfl

theorem bert_cos_score_rows (M : List ℤ → List ℤ → List ℕ → List (List ℝ))
    (Hdim : ℕ) (tokenize : String → List String)
    (numericalize : List String → List ℤ) (ℓr ℓh bs : ℕ) (hbs : 0 < bs) :
    ∀ (n : ℕ) (refs hyps : List String) (d : DDict),
      refs.length = n → refs.length = hyps.length →
      (∀ s ∈ refs, (numericalize ("[CLS]" :: tokenize s ++ ["[SEP]"])).length = ℓr) →
      (∀ s ∈ hyps, (numericalize ("[CLS]" :: tokenize s ++ ["[SEP]"])).length = ℓh) →
      bert_cos_score_idf M Hdim refs hyps tokenize numericalize d bs =
        (refs.zip hyps).map (fun pr =>
          rowScore M Hdim ℓr ℓh tokenize numericalize d.val pr.1 pr.2) := by
  intro n
  induction n using Nat.strong_induction_on with
  | _ n ih =>
    intro refs hyps d hn hlen hr hh
    rcases eq_or_ne refs [] with rfl | hne
    · rw [bert_cos_score_nil]
      simp
    · have hN : 0 < refs.length := List.length_pos.mpr hne
      have htl : (refs.take bs).length = (hyps.take bs).length := by
        rw [List.length_take, List.length_take, hlen]
      have hchunk := scoreChunk_rows M Hdim (refs.take bs) (hyps.take bs) tokenize
        numericalize d ℓr ℓh htl
        (fun s hs => hr s (List.take_subset bs refs hs))
        (fun s hs => hh s (List.take_subset bs hyps hs))
      have hdl : (refs.drop bs).length = (hyps.drop bs).length := by
        rw [List.length_drop, List.length_drop, hlen]
      have hrec := ih (refs.length - bs) (by omega) (refs.drop bs) (hyps.drop bs)
        (scoreChunk M Hdim (refs.take bs) (hyps.take bs) tokenize numericalize d).2
        (List.length_drop bs refs) hdl
        (fun s hs => hr s (List.drop_subset bs refs hs))
        (fun s hs => hh s (List.drop_subset bs hyps hs))
      have hsplit : refs.zip hyps =
          (refs.take bs).zip (hyps.take bs) ++ (refs.drop bs).zip (hyps.drop bs) := by
        conv_lhs => rw [← List.take_append_drop bs refs, ← List.take_append_drop bs hyps]
        exact List.zip_append htl
      rw [bert_cos_score_peel M Hdim refs hyps tokenize numericalize d bs hbs hne]
      rw [hchunk.1, hrec, hchunk.2]
      rw [← List.map_append, ← hsplit]

/-! ### C4: batch invariance of `bert_cos_score_idf`.

Concrete instance used for refutation and witness: `c4Tok` tokenizes `"a"`
to the empty token list (so the wrapped sequence has 2 ids) and every other
string to one token (3 ids); `c4Num` maps every token to id `1`; `c4Dict`
answers `1` for every key; `c4M` embeds every position as the 1-dimensional
vector `[1]`. -/

def c4Tok : String → List String := fun s => if s = "a" then [] else ["t"]

def c4Num : List String → List ℤ := fun l => l.map (fun _ => 1)

noncomputable def c4Dict : DDict := ⟨fun _ => some 1, 1⟩

noncomputable def c4M : List ℤ → List ℤ → List ℕ → List (List ℝ) :=
  fun ids _ _ => ids.map (fun _ => [1])

noncomputable def c4r :
    List (List (List ℝ)) × List ℕ × List (List ℕ) × List (List ℝ) × DDict :=
  get_bert_embedding ["a", "b"] c4M c4Tok c4Num c4Dict (-1)

noncomputable def c4h :
    List (List (List ℝ)) × List ℕ × List (List ℕ) × List (List ℝ) × DDict :=
  get_bert_embedding ["a", "b"] c4M c4Tok c4Num c4r.2.2.2.2 (-1)

noncomputable def c4CombEmb : Fin 2 → Fin 3 → Fin 1 → ℝ := fun _ _ _ => 1

noncomputable def c4CombMask : Fin 2 → Fin 3 → ℝ := fun b => ![![1, 1, 0], ![1, 1, 1]] b

noncomputable def c4CombIdf : Fin 2 → Fin 3 → ℝ := fun _ _ => 1

theorem c4_emb_r : c4r.1 = [[[1], [1], [1]], [[1], [1], [1]]] := rfl

theorem c4_emb_h : c4h.1 = [[[1], [1], [1]], [[1], [1], [1]]] := rfl

theorem c4_mask_r : c4r.2.2.1 = [[1, 1, 0], [1, 1, 1]] := rfl

theorem c4_mask_h : c4h.2.2.1 = [[1, 1, 0], [1, 1, 1]] := rfl

theorem c4_idf_h : c4h.2.2.2.1 = [[1, 1, ((1 : ℤ) : ℝ)], [1, 1, 1]] := rfl

theorem c4_re_eq :
    (fun (b : Fin 2) (k : Fin 3) (x : Fin 1) => NF.fin (at3 c4r.1 b k x)) =
      finT3 c4CombEmb := by
  funext b k x
  rw [c4_emb_r]
  fin_cases b <;> fin_cases k <;> fin_cases x <;> rfl

theorem c4_he_eq :
    (fun (b : Fin 2) (j : Fin 3) (x : Fin 1) => NF.fin (at3 c4h.1 b j x)) =
      finT3 c4CombEmb := by
  funext b j x
  rw [c4_emb_h]
  fin_cases b <;> fin_cases j <;> fin_cases x <;> rfl

theorem c4_rm_eq :
    (fun (b : Fin 2) (k : Fin 3) => NF.fin ((at2N c4r.2.2.1 b k : ℕ) : ℝ)) =
      finT2 c4CombMask := by
  funext b k
  rw [c4_mask_r]
  fin_cases b <;> fin_cases k <;> norm_num [at2N, finT2, c4CombMask]

theorem c4_hm_eq :
    (fun (b : Fin 2) (j : Fin 3) => NF.fin ((at2N c4h.2.2.1 b j : ℕ) : ℝ)) =
      finT2 c4CombMask := by
  funext b j
  rw [c4_mask_h]
  fin_cases b <;> fin_cases j <;> norm_num [at2N, finT2, c4CombMask]

theorem c4_hi_eq :
    (fun (b : Fin 2) (j : Fin 3) => NF.fin (at2R c4h.2.2.2.1 b j)) =
      finT2 c4CombIdf := by
  funext b j
  rw [c4_idf_h]
  fin_cases b <;> fin_cases j <;> norm_num [at2R, finT2, c4CombIdf]

theorem c4_comb_norm :
    ∀ (b : Fin 2) (k : Fin 3), (∑ y, c4CombEmb b k y * c4CombEmb b k y) ≠ 0 := by
  intro b k
  norm_num [c4CombEmb, Fin.sum_univ_one]

theorem c4_comb_mask01 :
    ∀ (b : Fin 2) (k : Fin 3), c4CombMask b k = 0 ∨ c4CombMask b k = 1 := by
  intro b k
  fin_cases b <;> fin_cases k <;> norm_num [c4CombMask]

theorem c4_comb_sim : ∀ (j k : Fin 3),
    greedy.sim (finT3 c4CombEmb) (finT3 c4CombEmb) 0 j k = NF.fin 1 := by
  intro j k
  rw [sim_fin c4CombEmb c4CombEmb c4_comb_norm c4_comb_norm 0 j k]
  congr 1
  norm_num [c4CombEmb, Fin.sum_univ_one, Real.sqrt_one]

theorem c4_comb_masked : ∀ (j k : Fin 3),
    greedy.masked_sim (finT3 c4CombEmb) (finT2 c4CombMask) (finT3 c4CombEmb)
        (finT2 c4CombMask) 0 j k = NF.fin (![1, 1, 0] j * ![1, 1, 0] k) := by
  intro j k
  rw [masked_sim_if c4CombEmb c4CombMask c4CombEmb c4CombMask c4_comb_norm c4_comb_norm
    c4_comb_mask01 c4_comb_mask01 0 j k]
  rw [c4_comb_sim j k]
  fin_cases j <;> fin_cases k <;> norm_num [c4CombMask]

theorem c4_comb_wp : ∀ j : Fin 3,
    greedy.word_precision (finT3 c4CombEmb) (finT2 c4CombMask) (finT3 c4CombEmb)
        (finT2 c4CombMask) 0 j = NF.fin (![1, 1, 0] j) := by
  intro j
  unfold greedy.word_precision
  rw [fmax_three]
  rw [c4_comb_masked j 0, c4_comb_masked j 1, c4_comb_masked j 2]
  fin_cases j <;> simp only [NF.max_fin_fin] <;> norm_num

theorem c4_comb_P :
    greedy.P (finT3 c4CombEmb) (finT2 c4CombMask) (finT3 c4CombEmb) (finT2 c4CombMask)
        (finT2 c4CombIdf) 0 = NF.fin (2 / 3) := by
  unfold greedy.P
  have hscale : ∀ j : Fin 3,
      greedy.precision_scale (finT2 c4CombIdf) 0 j = NF.fin (1 / 3) := by
    intro j
    rw [precision_scale_fin c4CombIdf
      (fun b => by norm_num [c4CombIdf, Fin.sum_univ_three]) 0 j]
    norm_num [c4CombIdf, Fin.sum_univ_three]
  rw [fsum_three]
  rw [c4_comb_wp 0, c4_comb_wp 1, c4_comb_wp 2, hscale 0, hscale 1, hscale 2]
  simp only [NF.mul_def, NF.mul_fin_fin, NF.add_fin_fin]
  norm_num

theorem c4_single_P :
    ((bert_cos_score_idf c4M 1 ["a", "b"] ["a", "b"] c4Tok c4Num c4Dict 2).getD 0
        (NF.nan, NF.nan, NF.nan)).1 = NF.fin (2 / 3) := by
  have h0 : ((bert_cos_score_idf c4M 1 ["a", "b"] ["a", "b"] c4Tok c4Num c4Dict 2).getD 0
        (NF.nan, NF.nan, NF.nan)).1 =
      greedy.P (fun (b : Fin 2) (k : Fin 3) (x : Fin 1) => NF.fin (at3 c4r.1 b k x))
        (fun (b : Fin 2) (k : Fin 3) => NF.fin ((at2N c4r.2.2.1 b k : ℕ) : ℝ))
        (fun (b : Fin 2) (j : Fin 3) (x : Fin 1) => NF.fin (at3 c4h.1 b j x))
        (fun (b : Fin 2) (j : Fin 3) => NF.fin ((at2N c4h.2.2.1 b j : ℕ) : ℝ))
        (fun (b : Fin 2) (j : Fin 3) => NF.fin (at2R c4h.2.2.2.1 b j)) 0 := rfl
  rw [h0, c4_re_eq, c4_rm_eq, c4_he_eq, c4_hm_eq, c4_hi_eq]
  exact c4_comb_P

def c4ridsA : List ℤ := c4Num ("[CLS]" :: c4Tok "a" ++ ["[SEP]"])

noncomputable def c4embA : List (List ℝ) :=
  c4M c4ridsA (c4ridsA.map (fun _ => 0)) (List.replicate c4ridsA.length 1)

noncomputable def c4One3 : Fin 1 → Fin 2 → Fin 1 → ℝ := fun _ _ _ => 1

noncomputable def c4One2 : Fin 1 → Fin 2 → ℝ := fun _ _ => 1

theorem c4_split_norm :
    ∀ (b : Fin 1) (k : Fin 2), (∑ y, c4One3 b k y * c4One3 b k y) ≠ 0 := by
  intro b k
  norm_num [c4One3, Fin.sum_univ_one]

theorem c4_split_sim : ∀ (j k : Fin 2),
    greedy.sim (finT3 c4One3) (finT3 c4One3) 0 j k = NF.fin 1 := by
  intro j k
  rw [sim_fin c4One3 c4One3 c4_split_norm c4_split_norm 0 j k]
  congr 1
  norm_num [c4One3, Fin.sum_univ_one, Real.sqrt_one]

theorem c4_split_P :
    greedy.P (finT3 c4One3) (finT2 c4One2) (finT3 c4One3) (finT2 c4One2)
        (finT2 c4One2) 0 = NF.fin 1 := by
  unfold greedy.P
  have hmask : ∀ (j k : Fin 2),
      greedy.masked_sim (finT3 c4One3) (finT2 c4One2) (finT3 c4One3)
          (finT2 c4One2) 0 j k = NF.fin 1 := by
    intro j k
    rw [masked_sim_if c4One3 c4One2 c4One3 c4One2 c4_split_norm c4_split_norm
      (fun b k2 => Or.inr rfl) (fun b j2 => Or.inr rfl) 0 j k]
    rw [if_pos ⟨rfl, rfl⟩, c4_split_sim j k]
  have hwp : ∀ j : Fin 2,
      greedy.word_precision (finT3 c4One3) (finT2 c4One2) (finT3 c4One3)
          (finT2 c4One2) 0 j = NF.fin 1 := by
    intro j
    unfold greedy.word_precision
    rw [fmax_two, hmask j 0, hmask j 1]
    simp only [NF.max_fin_fin]
    norm_num
  have hscale : ∀ j : Fin 2,
      greedy.precision_scale (finT2 c4One2) 0 j = NF.fin (1 / 2) := by
    intro j
    rw [precision_scale_fin c4One2 (fun b => by norm_num [c4One2, Fin.sum_univ_two]) 0 j]
    norm_num [c4One2, Fin.sum_univ_two]
  rw [fsum_two, hwp 0, hwp 1, hscale 0, hscale 1]
  simp only [NF.mul_def, NF.mul_fin_fin, NF.add_fin_fin]
  norm_num

theorem c4_reA_eq :
    (fun (_ : Fin 1) (k : Fin 2) (x : Fin 1) => NF.fin ((c4embA.getD k []).getD x 0)) =
      finT3 c4One3 := by
  funext b k x
  fin_cases k <;> fin_cases x <;> rfl

theorem c4_riA_eq :
    (fun (_ : Fin 1) (j : Fin 2) => NF.fin (c4Dict.val (c4ridsA.getD j 0))) =
      finT2 c4One2 := by
  funext b j
  fin_cases j <;> rfl

theorem c4_split_call1_P :
    (rowScore c4M 1 2 2 c4Tok c4Num c4Dict.val "a" "a").1 = NF.fin 1 := by
  have h0 : (rowScore c4M 1 2 2 c4Tok c4Num c4Dict.val "a" "a").1 =
      greedy.P
        (fun (_ : Fin 1) (k : Fin 2) (x : Fin 1) => NF.fin ((c4embA.getD k []).getD x 0))
        (fun (_ : Fin 1) (_ : Fin 2) => NF.fin 1)
        (fun (_ : Fin 1) (j : Fin 2) (x : Fin 1) => NF.fin ((c4embA.getD j []).getD x 0))
        (fun (_ : Fin 1) (_ : Fin 2) => NF.fin 1)
        (fun (_ : Fin 1) (j : Fin 2) => NF.fin (c4Dict.val (c4ridsA.getD j 0))) 0 := rfl
  rw [h0, c4_reA_eq, c4_riA_eq,
    show (fun (_ : Fin 1) (_ : Fin 2) => NF.fin 1) = finT2 c4One2 from rfl]
  exact c4_split_P

theorem c4_call1_eval :
    bert_cos_score_idf c4M 1 ["a"] ["a"] c4Tok c4Num c4Dict 2 =
      [rowScore c4M 1 2 2 c4Tok c4Num c4Dict.val "a" "a"] := by
  have h := bert_cos_score_rows c4M 1 c4Tok c4Num 2 2 2 (by norm_num) 1 ["a"] ["a"]
    c4Dict rfl rfl
    (fun s hs => by rw [List.mem_singleton] at hs; subst hs; rfl)
    (fun s hs => by rw [List.mem_singleton] at hs; subst hs; rfl)
  rw [h]
  rfl

/-- C4 (amended): when every reference tokenizes (after `[CLS]`/`[SEP]`
wrapping and numericalization) to the same length and likewise every
hypothesis, and the two lists have equal length, scoring all `N` pairs in a
single orchestrator call with any positive batch size produces exactly the
same `(P, R, F1)` row list as scoring the first `⌈N/2⌉` pairs and the
remaining pairs in two separate calls and concatenating the results.
Without the uniform-length condition the invariance fails (see the
counterexample): a chunk pads every row to the chunk-local maximum length
and the pad positions carry nonzero IDF mass, so rows depend on what they
are batched with. -/
theorem C4_batch_invariance (M : List ℤ → List ℤ → List ℕ → List (List ℝ))
    (Hdim : ℕ) (tokenize : String → List String)
    (numericalize : List String → List ℤ) (ℓr ℓh bs : ℕ)
    (refs hyps : List String) (d : DDict) (hbs : 0 < bs)
    (hlen : refs.length = hyps.length)
    (hr : ∀ s ∈ refs, (numericalize ("[CLS]" :: tokenize s ++ ["[SEP]"])).length = ℓr)
    (hh : ∀ s ∈ hyps, (numericalize ("[CLS]" :: tokenize s ++ ["[SEP]"])).length = ℓh) :
    bert_cos_score_idf M Hdim refs hyps tokenize numericalize d bs =
      bert_cos_score_idf M Hdim (refs.take ((refs.length + 1) / 2))
          (hyps.take ((refs.length + 1) / 2)) tokenize numericalize d bs ++
        bert_cos_score_idf M Hdim (refs.drop ((refs.length + 1) / 2))
          (hyps.drop ((refs.length + 1) / 2)) tokenize numericalize d bs := by
  have htl : (refs.take ((refs.length + 1) / 2)).length =
      (hyps.take ((refs.length + 1) / 2)).length := by
    rw [List.length_take, List.length_take, hlen]
  have hdl : (refs.drop ((refs.length + 1) / 2)).length =
      (hyps.drop ((refs.length + 1) / 2)).length := by
    rw [List.length_drop, List.length_drop, hlen]
  rw [bert_cos_score_rows M Hdim tokenize numericalize ℓr ℓh bs hbs refs.length
    refs hyps d rfl hlen hr hh]
  rw [bert_cos_score_rows M Hdim tokenize numericalize ℓr ℓh bs hbs
    (refs.take ((refs.length + 1) / 2)).length (refs.take ((refs.length + 1) / 2))
    (hyps.take ((refs.length + 1) / 2)) d rfl htl
    (fun s hs => hr s (List.take_subset _ refs hs))
    (fun s hs => hh s (List.take_subset _ hyps hs))]
  rw [bert_cos_score_rows M Hdim tokenize numericalize ℓr ℓh bs hbs
    (refs.drop ((refs.length + 1) / 2)).length (refs.drop ((refs.length + 1) / 2))
    (hyps.drop ((refs.length + 1) / 2)) d rfl hdl
    (fun s hs => hr s (List.drop_subset _ refs hs))
    (fun s hs => hh s (List.drop_subset _ hyps hs))]
  rw [← List.map_append]
  congr 1
  conv_lhs => rw [← List.take_append_drop ((refs.length + 1) / 2) refs,
    ← List.take_append_drop ((refs.length + 1) / 2) hyps]
  exact List.zip_append htl

/-- Counterexample to the unrestricted C4: with ragged tokenized lengths
(`"a"` wraps to 2 ids, `"b"` to 3), a single call on the two pairs
`("a","a"), ("b","b")` pads the short row and its IDF row picks up the pad
entry, giving `P[0] = 2/3`, while splitting into two calls of `⌈2/2⌉ = 1`
pair each gives `P[0] = 1` — so the single call differs from the
concatenation of the two half calls. -/
theorem C4_counterexample :
    bert_cos_score_idf c4M 1 ["a", "b"] ["a", "b"] c4Tok c4Num c4Dict 2 ≠
      bert_cos_score_idf c4M 1 (["a", "b"].take ((["a", "b"].length + 1) / 2))
          (["a", "b"].take ((["a", "b"].length + 1) / 2)) c4Tok c4Num c4Dict 2 ++
        bert_cos_score_idf c4M 1 (["a", "b"].drop ((["a", "b"].length + 1) / 2))
          (["a", "b"].drop ((["a", "b"].length + 1) / 2)) c4Tok c4Num c4Dict 2 := by
  intro h
  have hP := congrArg (fun l => (l.getD 0 (NF.nan, NF.nan, NF.nan)).1) h
  simp only [] at hP
  rw [c4_single_P] at hP
  have hr : ((bert_cos_score_idf c4M 1 (["a", "b"].take ((["a", "b"].length + 1) / 2))
        (["a", "b"].take ((["a", "b"].length + 1) / 2)) c4Tok c4Num c4Dict 2 ++
      bert_cos_score_idf c4M 1 (["a", "b"].drop ((["a", "b"].length + 1) / 2))
        (["a", "b"].drop ((["a", "b"].length + 1) / 2)) c4Tok c4Num c4Dict 2).getD 0
          (NF.nan, NF.nan, NF.nan)).1 = NF.fin 1 := by
    have h1 : bert_cos_score_idf c4M 1 (["a", "b"].take ((["a", "b"].length + 1) / 2))
        (["a", "b"].take ((["a", "b"].length + 1) / 2)) c4Tok c4Num c4Dict 2 =
          [rowScore c4M 1 2 2 c4Tok c4Num c4Dict.val "a" "a"] := c4_call1_eval
    rw [h1]
    exact c4_split_call1_P
  rw [hr] at hP
  have := NF.fin_injective hP
  norm_num at this

/-- Witness for C4 (amended): a concrete uniform-length instance (three
`"b"`/`"b"` pairs, every wrapped sequence has 3 ids, batch size 2) on which
the hypotheses hold and the single call equals the concatenation of the two
`⌈3/2⌉ = 2` / `1` half calls. -/
theorem C4_batch_invariance_witness :
    (0 : ℕ) < 2 ∧
    bert_cos_score_idf c4M 1 ["b", "b", "b"] ["b", "b", "b"] c4Tok c4Num c4Dict 2 =
      bert_cos_score_idf c4M 1 (["b", "b", "b"].take ((["b", "b", "b"].length + 1) / 2))
          (["b", "b", "b"].take ((["b", "b", "b"].length + 1) / 2)) c4Tok c4Num c4Dict 2 ++
        bert_cos_score_idf c4M 1 (["b", "b", "b"].drop ((["b", "b", "b"].length + 1) / 2))
          (["b", "b", "b"].drop ((["b", "b", "b"].length + 1) / 2)) c4Tok c4Num c4Dict 2 :=
  ⟨by norm_num,
    C4_batch_invariance c4M 1 c4Tok c4Num 3 3 2 ["b", "b", "b"] ["b", "b", "b"] c4Dict
      (by norm_num) rfl
      (fun s hs => by
        simp only [List.mem_cons] at hs
        rcases hs with rfl | rfl | rfl | hs
        · rfl
        · rfl
        · rfl
        · cases hs)
      (fun s hs => by
        simp only [List.mem_cons] at hs
        rcases hs with rfl | rfl | rfl | hs
        · rfl
        · rfl
        · rfl
        · cases hs)⟩
